import Mathlib

/-!
Verification of the chess-engine search core: evaluation, bounded minimax
with alpha-beta pruning, the (fen, depth)-keyed transposition cache, and the
root dispatcher, shallowly embedded from the two Python engine variants
(`AiymaChessZero` and `ChessEngine`).
-/

/-- Scores are integers extended with `-math.inf` and `math.inf`,
mirroring the Python engine's use of `float('inf')` sentinels alongside
integer material sums. -/
inductive Score : Type where
  | negInf : Score
  | int : ℤ → Score
  | posInf : Score
deriving DecidableEq, Repr

namespace Score

/-- The order on scores: `negInf` below every integer, `posInf` above. -/
def Le : Score → Score → Prop
  | negInf, _ => True
  | _, posInf => True
  | int m, int n => m ≤ n
  | posInf, int _ => False
  | posInf, negInf => False
  | int _, negInf => False

instance decLe : (a b : Score) → Decidable (Le a b)
  | negInf, negInf => isTrue trivial
  | negInf, int _ => isTrue trivial
  | negInf, posInf => isTrue trivial
  | int _, posInf => isTrue trivial
  | posInf, posInf => isTrue trivial
  | int m, int n => inferInstanceAs (Decidable (m ≤ n))
  | posInf, int _ => isFalse id
  | posInf, negInf => isFalse id
  | int _, negInf => isFalse id

instance : LinearOrder Score where
  le := Le
  le_refl a := by cases a <;> simp [Le]
  le_trans a b c hab hbc := by
    cases a <;> cases b <;> cases c <;> simp_all [Le] <;> omega
  le_antisymm a b hab hba := by
    cases a <;> cases b <;> simp_all [Le]
    omega
  le_total a b := by
    cases a <;> cases b <;> simp [Le] <;> omega
  decidableLE := decLe

instance : OrderBot Score where
  bot := negInf
  bot_le a := by cases a <;> simp [(· ≤ ·), Le]

instance : OrderTop Score where
  top := posInf
  le_top a := by cases a <;> simp [(· ≤ ·), Le]

theorem bot_lt_int (n : ℤ) : (⊥ : Score) < int n :=
  lt_of_le_of_ne bot_le fun h => Score.noConfusion h

theorem int_lt_top (n : ℤ) : int n < (⊤ : Score) :=
  lt_of_le_of_ne le_top fun h => Score.noConfusion h

theorem bot_lt_top : (⊥ : Score) < (⊤ : Score) :=
  lt_of_le_of_ne bot_le fun h => Score.noConfusion h

end Score

/-!
Generic search core

Both engine variants share the same recursive control flow: at depth 0 (or a
flagged terminal state) the node is scored by the evaluator; otherwise the
children are folded left-to-right, updating the running best and `alpha`
(maximizing) or `beta` (minimizing), with an early exit once `beta <= alpha`.
`SearchSpec` abstracts the parts that differ (child enumeration, the terminal
test, the leaf evaluation), so the pruning analysis applies to
`ChessEngine.alpha_beta` and to cache-free `AiymaChessZero.minimax` alike.
-/

/-- The data a search node needs: its children in enumeration order, the
terminal test consulted at nonzero depth (`board.is_game_over()` for the
`AiymaChessZero` variant, constantly false for `ChessEngine`), and the leaf
evaluation. -/
structure SearchSpec (Pos : Type) where
  children : Pos → List Pos
  stop : Pos → Bool
  base : Pos → Score

/-- The maximizing for-loop of `alpha_beta` / `minimax`: fold the child
values into `max_eval` (here `m`) and `alpha` (here `a`), breaking out as
soon as `beta <= alpha`.  `f c a'` is the recursive search of child `c`
under the window `(a', beta)`. -/
def abMaxL (f : α → Score → Score) (beta : Score) : List α → Score → Score → Score
  | [], m, _ => m
  | c :: cs, m, a =>
    let r := f c a
    let m' := max m r
    let a' := max a r
    if beta ≤ a' then m' else abMaxL f beta cs m' a'

/-- The minimizing for-loop, dual to `abMaxL`: fold into `min_eval` and
`beta`, breaking as soon as `beta <= alpha`. -/
def abMinL (f : α → Score → Score) (alpha : Score) : List α → Score → Score → Score
  | [], m, _ => m
  | c :: cs, m, b =>
    let r := f c b
    let m' := min m r
    let b' := min b r
    if b' ≤ alpha then m' else abMinL f alpha cs m' b'

/-- Bounded minimax with alpha-beta pruning (score component), embedded from
`ChessEngine.alpha_beta` and from `AiymaChessZero.minimax` with the
transposition cache stripped.  An empty child list falls through the loop
and yields `-inf` (maximizing) or `inf` (minimizing), exactly as both
sources do. -/
def ab (S : SearchSpec Pos) : ℕ → Pos → Score → Score → Bool → Score
  | 0, p, _, _, _ => S.base p
  | d + 1, p, a, b, maximizing =>
    if S.stop p then S.base p
    else if maximizing then
      abMaxL (fun c a' => ab S d c a' b false) b (S.children p) ⊥ a
    else
      abMinL (fun c b' => ab S d c a b' true) a (S.children p) ⊤ b

/-- Full-width maximizing fold: the same loop with the cutoff removed. -/
def fwMaxL (g : α → Score) : List α → Score → Score
  | [], m => m
  | c :: cs, m => fwMaxL g cs (max m (g c))

/-- Full-width minimizing fold: the same loop with the cutoff removed. -/
def fwMinL (g : α → Score) : List α → Score → Score
  | [], m => m
  | c :: cs, m => fwMinL g cs (min m (g c))

/-- Bounded minimax with pruning disabled: full-width bounds at every node,
the spec's reference point for pruning correctness. -/
def fw (S : SearchSpec Pos) : ℕ → Pos → Bool → Score
  | 0, p, _ => S.base p
  | d + 1, p, maximizing =>
    if S.stop p then S.base p
    else if maximizing then
      fwMaxL (fun c => fw S d c false) (S.children p) ⊥
    else
      fwMinL (fun c => fw S d c true) (S.children p) ⊤

/-!
`ChessEngine.alpha_beta` with its move component

`ab` above embeds only the score; `ChessEngine.alpha_beta` also returns
the move it selected (`best_move`), updated on `eval > max_eval`
(maximizing) or `eval < min_eval` (minimizing), so the node data must
expose the move list itself, not only the child positions.
-/

/-- The node data of `ChessEngine.alpha_beta`: the legal moves in
generation order, the position a move leads to (`make_move`), and the
depth-0 evaluation (`evaluate`); this variant consults no terminal test at
nonzero depth. -/
structure MoveSpec (Pos Move : Type) where
  legalMoves : Pos → List Move
  child : Pos → Move → Pos
  base : Pos → Score

/-- The `SearchSpec` of the same node data: children are the positions the
legal moves lead to, and the terminal test is constantly false. -/
def specOfMoveSpec (S : MoveSpec Pos Move) : SearchSpec Pos where
  children := fun p => (S.legalMoves p).map (S.child p)
  stop := fun _ => false
  base := S.base

/-- The maximizing for-loop of `ChessEngine.alpha_beta` with the move
kept: `if eval > max_eval: max_eval = eval; best_move = move`, then
`alpha = max(alpha, eval)` and the `beta <= alpha` break. -/
def abmMaxL (f : α → Score → Score) (beta : Score) :
    List α → Score → Option α → Score → Score × Option α
  | [], m, bm, _ => (m, bm)
  | mv :: mvs, m, bm, a =>
    let r := f mv a
    let m' := if m < r then r else m
    let bm' := if m < r then some mv else bm
    let a' := max a r
    if beta ≤ a' then (m', bm') else abmMaxL f beta mvs m' bm' a'

/-- The minimizing for-loop of `ChessEngine.alpha_beta` with the move
kept: `if eval < min_eval: min_eval = eval; best_move = move`, then
`beta = min(beta, eval)` and the `beta <= alpha` break. -/
def abmMinL (f : α → Score → Score) (alpha : Score) :
    List α → Score → Option α → Score → Score × Option α
  | [], m, bm, _ => (m, bm)
  | mv :: mvs, m, bm, b =>
    let r := f mv b
    let m' := if r < m then r else m
    let bm' := if r < m then some mv else bm
    let b' := min b r
    if b' ≤ alpha then (m', bm') else abmMinL f alpha mvs m' bm' b'

/-- `ChessEngine.alpha_beta`, score and selected move: depth 0 evaluates
and selects no move; an empty legal-move list returns the loss/win
sentinel and no move; otherwise the pruned fold runs over the legal
moves, each recursive call discarding the child's move component
(`eval, _ = self.alpha_beta(...)`). -/
def alpha_beta (S : MoveSpec Pos Move) :
    ℕ → Pos → Score → Score → Bool → Score × Option Move
  | 0, p, _, _, _ => (S.base p, none)
  | d + 1, p, a, b, maximizing =>
    if (S.legalMoves p).isEmpty then ((if maximizing then ⊥ else ⊤), none)
    else if maximizing then
      abmMaxL (fun mv a' => (alpha_beta S d (S.child p mv) a' b false).1) b
        (S.legalMoves p) ⊥ none a
    else
      abmMinL (fun mv b' => (alpha_beta S d (S.child p mv) a b' true).1) a
        (S.legalMoves p) ⊤ none b

/-!
Evaluator (`AiymaChessZero.evaluate_board`)

The rules library (`python-chess`) is an external collaborator, so a board is
modelled through exactly the capabilities `evaluate_board` consumes: the
side to move, the three terminal predicates, and the piece on each of the 64
squares.
-/

/-- The `python-chess` piece type constants used as keys of the value and
piece-square tables. -/
inductive PieceType : Type where
  | pawn | knight | bishop | rook | queen | king
deriving DecidableEq, Repr

/-- A piece as `evaluate_board` reads it: its type and its color
(`true` = White, matching `chess.WHITE`). -/
structure Piece where
  pieceType : PieceType
  color : Bool
deriving DecidableEq, Repr

/-- The board capabilities consumed by `evaluate_board`: `board.turn`
(`true` = White to move), `board.is_checkmate()`, `board.is_stalemate()`,
`board.is_insufficient_material()`, and `board.piece_at(square)` for the 64
squares `chess.SQUARES`. -/
structure PyBoard where
  turn : Bool
  isCheckmate : Bool
  isStalemate : Bool
  isInsufficientMaterial : Bool
  pieceAt : Fin 64 → Option Piece

/-- `PIECE_VALUES` of the `AiymaChessZero` variant. -/
def PIECE_VALUES : PieceType → ℤ
  | .pawn => 100
  | .knight => 320
  | .bishop => 330
  | .rook => 500
  | .queen => 900
  | .king => 20000

/-- `PIECE_SQUARE_TABLES`: a dictionary holding positional-bonus tables for
pawn, knight and bishop only; the source's trailing comment
"Add other piece-square tables for rook, queen, king..." marks the rest as
absent, so lookups for those types return `none`. -/
def PIECE_SQUARE_TABLES : PieceType → Option (List ℤ)
  | .pawn => some
      [0, 5, 5, 0, 5, 10, 50, 0,
       0, 10, -5, 0, 5, 10, 50, 0,
       0, 5, 5, 10, 20, 30, 50, 0,
       5, 5, 10, 25, 35, 40, 50, 0,
       5, 5, 10, 25, 35, 40, 50, 0,
       0, 5, 5, 10, 20, 30, 50, 0,
       0, 10, -5, 0, 5, 10, 50, 0,
       0, 5, 5, 0, 5, 10, 50, 0]
  | .knight => some
      [-50, -40, -30, -30, -30, -30, -40, -50,
       -40, -20, 0, 0, 0, 0, -20, -40,
       -30, 0, 10, 15, 15, 10, 0, -30,
       -30, 5, 15, 20, 20, 15, 5, -30,
       -30, 0, 15, 20, 20, 15, 0, -30,
       -30, 5, 10, 15, 15, 10, 5, -30,
       -40, -20, 0, 5, 5, 0, -20, -40,
       -50, -40, -30, -30, -30, -30, -40, -50]
  | .bishop => some
      [-20, -10, -10, -10, -10, -10, -10, -20,
       -10, 0, 0, 0, 0, 0, 0, -10,
       -10, 0, 5, 10, 10, 5, 0, -10,
       -10, 5, 5, 10, 10, 5, 5, -10,
       -10, 0, 10, 10, 10, 10, 0, -10,
       -10, 10, 10, 10, 10, 10, 10, -10,
       -10, 5, 0, 0, 0, 0, 5, -10,
       -20, -10, -10, -10, -10, -10, -10, -20]
  | _ => none

/-- `PIECE_SQUARE_TABLES.get(piece.piece_type, [0] * 64)[square]`: the
positional bonus actually used, falling back to the all-zero table when the
piece type has no entry. -/
def pstOf (pt : PieceType) (sq : Fin 64) : ℤ :=
  ((PIECE_SQUARE_TABLES pt).getD (List.replicate 64 0)).getD sq 0

/-- One square's contribution to `eval_score`: material plus positional
bonus, sign-flipped for pieces of the side not to move. -/
def squareVal (b : PyBoard) (sq : Fin 64) : ℤ :=
  match b.pieceAt sq with
  | none => 0
  | some piece =>
    let value := PIECE_VALUES piece.pieceType
    let pst := pstOf piece.pieceType sq
    if piece.color = b.turn then value + pst else -(value + pst)

/-- The heuristic `eval_score` accumulated over `chess.SQUARES`. -/
def boardSum (b : PyBoard) : ℤ :=
  ((List.finRange 64).map (squareVal b)).sum

/-- `AiymaChessZero.evaluate_board`: checkmate yields `-inf` when White is
to move and `inf` otherwise; stalemate and insufficient material yield 0;
otherwise the signed material-plus-positional sum. -/
def evaluate_board (b : PyBoard) : Score :=
  if b.isCheckmate then (if b.turn then ⊥ else ⊤)
  else if b.isStalemate || b.isInsufficientMaterial then .int 0
  else .int (boardSum b)

/-!
`AiymaChessZero.minimax` with its transposition cache

The rules engine is consumed through the abstract capability interface of
the spec: ordered legal moves, the position reached by a move, the `fen`
identity used as cache key, and `is_game_over`.  The cache itself is a
dictionary from `(board.fen(), depth)` to a score; an insertion shadows any
earlier entry for the same key, like a Python dict assignment.
-/

/-- The rules-engine capabilities `AiymaChessZero` consumes: legal moves in
a stable order, the child position a move leads to (`board.push(move)`),
the cache key `board.fen()`, `board.is_game_over()`, and the view of the
position that `evaluate_board` reads. -/
structure Rules (Pos Move K : Type) where
  legalMoves : Pos → List Move
  child : Pos → Move → Pos
  fen : Pos → K
  gameOver : Pos → Bool
  view : Pos → PyBoard

/-- The transposition table: entries keyed by `(fen, depth)`, most recent
first. -/
def Table (K : Type) : Type := List ((K × ℕ) × Score)

/-- Probe the transposition table for a key. -/
def lookupT [DecidableEq K] : Table K → K × ℕ → Option Score
  | [], _ => none
  | (k, v) :: rest, key => if k = key then some v else lookupT rest key

/-- `self.transposition_table[key] = score`. -/
def insertT (t : Table K) (key : K × ℕ) (s : Score) : Table K :=
  (key, s) :: t

/-- The maximizing for-loop of `minimax`, threading the shared cache
through the recursive calls; `f c a' t` searches child `c` under window
`(a', beta)` with cache `t`. -/
def mcMaxL (f : α → Score → Table K → Score × Table K) (beta : Score) :
    List α → Score → Score → Table K → Score × Table K
  | [], m, _, t => (m, t)
  | c :: cs, m, a, t =>
    let (r, t') := f c a t
    let m' := max m r
    let a' := max a r
    if beta ≤ a' then (m', t') else mcMaxL f beta cs m' a' t'

/-- The minimizing for-loop of `minimax` with the cache threaded. -/
def mcMinL (f : α → Score → Table K → Score × Table K) (alpha : Score) :
    List α → Score → Score → Table K → Score × Table K
  | [], m, _, t => (m, t)
  | c :: cs, m, b, t =>
    let (r, t') := f c b t
    let m' := min m r
    let b' := min b r
    if b' ≤ alpha then (m', t') else mcMinL f alpha cs m' b' t'

/-- `AiymaChessZero.minimax`: probe the cache under `(fen, depth)` and
return any hit; at depth 0 or a game-over position evaluate, store and
return; otherwise run the pruned fold over the legal moves and store the
folded best under the node's key before returning. -/
def minimaxC [DecidableEq K] (R : Rules Pos Move K) :
    ℕ → Pos → Score → Score → Bool → Table K → Score × Table K
  | d, p, a, b, maximizing, t =>
    match lookupT t (R.fen p, d) with
    | some v => (v, t)
    | none =>
      match d with
      | 0 =>
        let s := evaluate_board (R.view p)
        (s, insertT t (R.fen p, 0) s)
      | d' + 1 =>
        if R.gameOver p then
          let s := evaluate_board (R.view p)
          (s, insertT t (R.fen p, d' + 1) s)
        else if maximizing then
          let (m, t') := mcMaxL (fun c a' t' => minimaxC R d' c a' b false t') b
            ((R.legalMoves p).map (R.child p)) ⊥ a t
          (m, insertT t' (R.fen p, d' + 1) m)
        else
          let (m, t') := mcMinL (fun c b' t' => minimaxC R d' c a b' true t') a
            ((R.legalMoves p).map (R.child p)) ⊤ b t
          (m, insertT t' (R.fen p, d' + 1) m)

/-- The maximizing fold of `minimax` with the `beta <= alpha` break removed
but the cache kept. -/
def mcMaxLFW (f : α → Score → Table K → Score × Table K) :
    List α → Score → Score → Table K → Score × Table K
  | [], m, _, t => (m, t)
  | c :: cs, m, a, t =>
    let (r, t') := f c a t
    mcMaxLFW f cs (max m r) (max a r) t'

/-- The minimizing fold of `minimax` with the break removed but the cache
kept. -/
def mcMinLFW (f : α → Score → Table K → Score × Table K) :
    List α → Score → Score → Table K → Score × Table K
  | [], m, _, t => (m, t)
  | c :: cs, m, b, t =>
    let (r, t') := f c b t
    mcMinLFW f cs (min m r) (min b r) t'

/-- `minimax` with pruning disabled (the cutoff removed, so the bounds are
inert and every node is searched full-width) but the cache still active:
the comparison point named by the pruning-correctness property. -/
def minimaxFWC [DecidableEq K] (R : Rules Pos Move K) :
    ℕ → Pos → Score → Score → Bool → Table K → Score × Table K
  | d, p, a, b, maximizing, t =>
    match lookupT t (R.fen p, d) with
    | some v => (v, t)
    | none =>
      match d with
      | 0 =>
        let s := evaluate_board (R.view p)
        (s, insertT t (R.fen p, 0) s)
      | d' + 1 =>
        if R.gameOver p then
          let s := evaluate_board (R.view p)
          (s, insertT t (R.fen p, d' + 1) s)
        else if maximizing then
          let (m, t') := mcMaxLFW (fun c a' t' => minimaxFWC R d' c a' b false t')
            ((R.legalMoves p).map (R.child p)) ⊥ a t
          (m, insertT t' (R.fen p, d' + 1) m)
        else
          let (m, t') := mcMinLFW (fun c b' t' => minimaxFWC R d' c a b' true t')
            ((R.legalMoves p).map (R.child p)) ⊤ b t
          (m, insertT t' (R.fen p, d' + 1) m)

/-- The `SearchSpec` induced by a rules engine: this is `minimax` stripped
of its cache, with children enumerated through `board.legal_moves` and
leaves scored by `evaluate_board`. -/
def specOfRules (R : Rules Pos Move K) : SearchSpec Pos where
  children := fun p => (R.legalMoves p).map (R.child p)
  stop := R.gameOver
  base := fun p => evaluate_board (R.view p)

/-- `minimax` with the transposition cache disabled. -/
def minimaxNC (R : Rules Pos Move K) (d : ℕ) (p : Pos)
    (a b : Score) (maximizing : Bool) : Score :=
  ab (specOfRules R) d p a b maximizing

/-!
Root dispatcher (`AiymaChessZero.get_best_move`)

`get_best_move` pushes each root move on the one shared board object,
submits `self.minimax(board, depth - 1, -inf, inf, False)` — the shared,
still-mutating board itself, not a copy — to the thread pool, pops
immediately, and finally folds the futures' results in submission order,
keeping the first strict improvement over `best_eval = -inf`.

Because the submitted argument is the shared board, the position a worker
searches is whatever that board holds when the worker actually runs: a
task that runs to completion inside its own push/pop bracket searches the
intended child, while a task that runs only after the submission loop has
finished finds the board popped back to the root.  The workers also share
one transposition table, threaded here through the completed tasks in
execution order.  `runTasks` models the bracketed executions, in which
every task ran inside its bracket and so searched its intended child;
`runTasksSched` below models the general case, tagging each completed
task with whether it ran inside its bracket.
-/

/-- Probe the per-task result map built by the worker pool. -/
def lookupR : List (ℕ × Score) → ℕ → Option Score
  | [], _ => none
  | (i, v) :: rest, j => if i = j then some v else lookupR rest j

/-- The bracketed executions of the pool: every submitted search ran to
completion inside its own push/pop bracket, so each task `i` searches its
intended child `tasks[i]` at the given depth with full-width bounds and
`maximizing = False`; `pi` is the order in which the tasks completed,
threading the shared transposition table from one to the next. -/
def runTasks [DecidableEq K] (R : Rules Pos Move K) (d : ℕ) (tasks : List Pos) :
    List ℕ → Table K → List (ℕ × Score) × Table K
  | [], t => ([], t)
  | i :: rest, t =>
    match tasks[i]? with
    | none => runTasks R d tasks rest t
    | some c =>
      let (v, t') := minimaxC R d c ⊥ ⊤ false t
      let (acc, t'') := runTasks R d tasks rest t'
      ((i, v) :: acc, t'')

/-- The `(move, future.result())` pairs of a bracketed execution in
submission order: root move `i` paired with the score its worker reported
(`none` would mean the schedule never ran that task). -/
def reportedPairs [DecidableEq K] (R : Rules Pos Move K) (p : Pos) (depth : ℕ)
    (pi : List ℕ) (t0 : Table K) : List (Move × Option Score) :=
  let mvs := R.legalMoves p
  let tasks := mvs.map (R.child p)
  let results := (runTasks R (depth - 1) tasks pi t0).1
  mvs.enum.map fun im => (im.2, lookupR results im.1)

/-- One step of the reduction loop of `get_best_move`: `if eval >
best_eval: best_eval = eval; best_move = move`. -/
def reduceStep (best : Score × Option Move) (pr : Move × Option Score) :
    Score × Option Move :=
  match pr.2 with
  | none => best
  | some v => if best.1 < v then (v, some pr.1) else best

/-- The reduction loop of `get_best_move`: starting from
`best_eval = -inf`, `best_move = None`, keep a result only when it strictly
improves `best_eval`. -/
def reduceBest : List (Move × Option Score) → Score × Option Move :=
  List.foldl reduceStep (⊥, none)

/-- `AiymaChessZero.get_best_move` under a bracketed execution,
parameterized by the worker completion order `pi` and the initial contents
of the shared transposition table. -/
def get_best_move [DecidableEq K] (R : Rules Pos Move K) (p : Pos) (depth : ℕ)
    (pi : List ℕ) (t0 : Table K) : Option Move :=
  (reduceBest (reportedPairs R p depth pi t0)).2

/-- A general execution of the pool over the shared mutable board: the
schedule lists the completed tasks in execution order, each tagged `true`
if it ran inside its push/pop bracket (searching its intended child) and
`false` if it ran only after the submission loop had finished (searching
the board as the loop left it: popped back to the root). -/
def runTasksSched [DecidableEq K] (R : Rules Pos Move K) (d : ℕ) (root : Pos)
    (tasks : List Pos) : List (ℕ × Bool) → Table K → List (ℕ × Score) × Table K
  | [], t => ([], t)
  | ib :: rest, t =>
    match tasks[ib.1]? with
    | none => runTasksSched R d root tasks rest t
    | some c =>
      let pos := if ib.2 then c else root
      let (v, t') := minimaxC R d pos ⊥ ⊤ false t
      let (acc, t'') := runTasksSched R d root tasks rest t'
      ((ib.1, v) :: acc, t'')

/-- The `(move, future.result())` pairs under a general shared-board
schedule. -/
def reportedPairsSched [DecidableEq K] (R : Rules Pos Move K) (p : Pos)
    (depth : ℕ) (sched : List (ℕ × Bool)) (t0 : Table K) :
    List (Move × Option Score) :=
  let mvs := R.legalMoves p
  let tasks := mvs.map (R.child p)
  let results := (runTasksSched R (depth - 1) p tasks sched t0).1
  mvs.enum.map fun im => (im.2, lookupR results im.1)

/-- `AiymaChessZero.get_best_move` under a general schedule of the shared
mutable board. -/
def get_best_move_sched [DecidableEq K] (R : Rules Pos Move K) (p : Pos)
    (depth : ℕ) (sched : List (ℕ × Bool)) (t0 : Table K) : Option Move :=
  (reduceBest (reportedPairsSched R p depth sched t0)).2

/-- The spec's description of the tie-break policy, used as the reference
point: the maximum reported score... -/
def maxReported (l : List (Move × Option Score)) : Score :=
  l.foldr
    (fun pr acc =>
      match pr.2 with
      | none => acc
      | some v => max v acc)
    ⊥

/-- ...and the earliest move (in submission order) whose reported score
equals that maximum. -/
def firstBest (l : List (Move × Option Score)) : Option Move :=
  (l.find? fun pr => pr.2 = some (maxReported l)).map Prod.fst

/-!
Push/pop symmetry of the search (`minimax` with explicit board state)

`minimax` mutates its board in place: `board.push(move)` before each
recursive call and `board.pop()` after it, on the pruning exit as well.  To
state the frame property the mutation is made explicit: the search takes
the board value and returns the board value it leaves behind, with `push`
and `pop` as the abstract in-place operations of the rules engine.
-/

/-- The rules-engine capabilities of the stateful view of `minimax`:
`push`/`pop` mutate the position, the rest as in `Rules`. -/
structure MRules (Pos Move K : Type) where
  legalMoves : Pos → List Move
  push : Pos → Move → Pos
  pop : Pos → Pos
  fen : Pos → K
  gameOver : Pos → Bool
  view : Pos → PyBoard

/-- The maximizing for-loop of `minimax` with the board state threaded:
push the move, recurse on the mutated board, pop the board the recursion
returns, then fold and possibly break. -/
def msMaxL (R : MRules Pos Move K)
    (f : Pos → Score → Table K → Score × Pos × Table K) (beta : Score) :
    List Move → Score → Score → Pos → Table K → Score × Pos × Table K
  | [], m, _, p, t => (m, p, t)
  | mv :: mvs, m, a, p, t =>
    let p1 := R.push p mv
    let (r, p2, t') := f p1 a t
    let p3 := R.pop p2
    let m' := max m r
    let a' := max a r
    if beta ≤ a' then (m', p3, t') else msMaxL R f beta mvs m' a' p3 t'

/-- The minimizing for-loop of `minimax` with the board state threaded. -/
def msMinL (R : MRules Pos Move K)
    (f : Pos → Score → Table K → Score × Pos × Table K) (alpha : Score) :
    List Move → Score → Score → Pos → Table K → Score × Pos × Table K
  | [], m, _, p, t => (m, p, t)
  | mv :: mvs, m, b, p, t =>
    let p1 := R.push p mv
    let (r, p2, t') := f p1 b t
    let p3 := R.pop p2
    let m' := min m r
    let b' := min b r
    if b' ≤ alpha then (m', p3, t') else msMinL R f alpha mvs m' b' p3 t'

/-- `AiymaChessZero.minimax` with its in-place board mutation explicit:
returns the score, the board state left behind, and the updated cache. -/
def minimaxSt [DecidableEq K] (R : MRules Pos Move K) :
    ℕ → Pos → Score → Score → Bool → Table K → Score × Pos × Table K
  | d, p, a, b, maximizing, t =>
    match lookupT t (R.fen p, d) with
    | some v => (v, p, t)
    | none =>
      match d with
      | 0 =>
        let s := evaluate_board (R.view p)
        (s, p, insertT t (R.fen p, 0) s)
      | d' + 1 =>
        if R.gameOver p then
          let s := evaluate_board (R.view p)
          (s, p, insertT t (R.fen p, d' + 1) s)
        else if maximizing then
          let (m, p', t') := msMaxL R (fun q a' t' => minimaxSt R d' q a' b false t') b
            (R.legalMoves p) ⊥ a p t
          (m, p', insertT t' (R.fen p, d' + 1) m)
        else
          let (m, p', t') := msMinL R (fun q b' t' => minimaxSt R d' q a b' true t') a
            (R.legalMoves p) ⊤ b p t
          (m, p', insertT t' (R.fen p, d' + 1) m)

/-!
The standalone `ChessEngine` variant

Its board is a Python list of 8 lists of one-character strings, indexed with
Python semantics: an index `i` with `-len <= i < 0` wraps to `len + i`, and
an index outside `[-len, len)` raises (modelled as `none`).  The wrap is
reachable: a white pawn on row 0 probes `board[r + step]` with
`r + step = -1`, which Python reads as row 7.
-/

/-- Python list indexing: normalize an index to a position, `none` when the
access would raise `IndexError`. -/
def pyIdx (len : ℕ) (i : ℤ) : Option ℕ :=
  if 0 ≤ i ∧ i < len then some i.toNat
  else if -(len : ℤ) ≤ i ∧ i < 0 then some (i + len).toNat
  else none

/-- `l[i]` with Python index semantics. -/
def pyGet (l : List α) (i : ℤ) : Option α :=
  (pyIdx l.length i).bind fun j => l[j]?

/-- `l[i] = x` with Python index semantics. -/
def pySet (l : List α) (i : ℤ) (x : α) : Option (List α) :=
  (pyIdx l.length i).map fun j => l.set j x

/-- `board[r][c]`. -/
def getCell (b : List (List Char)) (r c : ℤ) : Option Char :=
  (pyGet b r).bind fun row => pyGet row c

/-- `board[r][c] = x`. -/
def setCell (b : List (List Char)) (r c : ℤ) (x : Char) :
    Option (List (List Char)) :=
  (pyGet b r).bind fun row =>
    (pySet row c x).bind fun row' => pySet b r row'

/-- A move of the standalone engine: `((from_row, from_col),
(to_row, to_col))`. -/
abbrev CMove : Type := (ℤ × ℤ) × (ℤ × ℤ)

/-- The `ChessEngine` state: the 8x8 character board and the
`white_to_move` flag. -/
structure CBoard where
  board : List (List Char)
  white_to_move : Bool
deriving DecidableEq

/-- The initial position set up by `ChessEngine.__init__`. -/
def startBoard : CBoard where
  board :=
    [['r', 'n', 'b', 'q', 'k', 'b', 'n', 'r'],
     ['p', 'p', 'p', 'p', 'p', 'p', 'p', 'p'],
     ['.', '.', '.', '.', '.', '.', '.', '.'],
     ['.', '.', '.', '.', '.', '.', '.', '.'],
     ['.', '.', '.', '.', '.', '.', '.', '.'],
     ['.', '.', '.', '.', '.', '.', '.', '.'],
     ['P', 'P', 'P', 'P', 'P', 'P', 'P', 'P'],
     ['R', 'N', 'B', 'Q', 'K', 'B', 'N', 'R']]
  white_to_move := true

/-- `ChessEngine.make_move`: copy the moved piece onto the destination,
blank the origin, flip the side to move. -/
def make_move (B : CBoard) (mv : CMove) : Option CBoard :=
  (getCell B.board mv.1.1 mv.1.2).bind fun piece =>
    (setCell B.board mv.2.1 mv.2.2 piece).bind fun b1 =>
      (setCell b1 mv.1.1 mv.1.2 '.').map fun b2 =>
        { board := b2, white_to_move := !B.white_to_move }

/-- `ChessEngine.undo_move`: copy the piece back from the destination,
restore the captured piece there, flip the side to move back. -/
def undo_move (B : CBoard) (mv : CMove) (captured_piece : Char) : Option CBoard :=
  (getCell B.board mv.2.1 mv.2.2).bind fun piece =>
    (setCell B.board mv.1.1 mv.1.2 piece).bind fun b1 =>
      (setCell b1 mv.2.1 mv.2.2 captured_piece).map fun b2 =>
        { board := b2, white_to_move := !B.white_to_move }

/-- `ChessEngine.generate_piece_moves` for the piece sitting at `(r, c)`:
pawns get their single push, plus the double push from the start row when
both squares are empty; every other piece type yields no moves.  A probe of
`board[r + step]` outside the list raises, hence `none`. -/
def generate_piece_moves (B : CBoard) (r c : ℤ) (piece : Char) :
    Option (List CMove) :=
  if piece.toUpper = 'P' then
    let step : ℤ := if piece.isUpper then -1 else 1
    let start_row : ℤ := if piece.isUpper then 6 else 1
    (getCell B.board (r + step) c).bind fun tgt =>
      if tgt = '.' then
        if r = start_row then
          (getCell B.board (r + 2 * step) c).map fun tgt2 =>
            if tgt2 = '.' then
              [((r, c), (r + step, c)), ((r, c), (r + 2 * step, c))]
            else [((r, c), (r + step, c))]
        else some [((r, c), (r + step, c))]
      else some []
  else some []

/-- The inner loop of `generate_legal_moves` over one row: a piece is
expanded when `piece.isupper() == self.white_to_move and piece != '.'`. -/
def genRow (B : CBoard) (r : ℤ) : List Char → ℤ → Option (List CMove)
  | [], _ => some []
  | piece :: rest, c =>
    if piece.isUpper = B.white_to_move ∧ piece ≠ '.' then
      (generate_piece_moves B r c piece).bind fun ms =>
        (genRow B r rest (c + 1)).map fun ms' => ms ++ ms'
    else genRow B r rest (c + 1)

/-- The outer loop of `generate_legal_moves` over the rows. -/
def genRows (B : CBoard) : List (List Char) → ℤ → Option (List CMove)
  | [], _ => some []
  | row :: rows, r =>
    (genRow B r row 0).bind fun ms =>
      (genRows B rows (r + 1)).map fun ms' => ms ++ ms'

/-- `ChessEngine.generate_legal_moves`. -/
def generate_legal_moves (B : CBoard) : Option (List CMove) :=
  genRows B B.board 0

/-- The position after the double pawn push e2e4 from the start position
(internal coordinates: from `(6, 4)` to `(4, 4)`). -/
def afterE4 : CBoard :=
  (make_move startBoard ((6, 4), (4, 4))).getD startBoard

/-- What the claim asserts of every generated move: the source square holds
a pawn of the side to move, the destination square is empty (never a
capture), and the move is a straight push one step forward, or two steps
from the start row. -/
def pawnPushSpec (B : CBoard) (mv : CMove) : Prop :=
  ∃ piece : Char,
    getCell B.board mv.1.1 mv.1.2 = some piece ∧
    piece.isUpper = B.white_to_move ∧ piece ≠ '.' ∧ piece.toUpper = 'P' ∧
    mv.2.2 = mv.1.2 ∧
    getCell B.board mv.2.1 mv.2.2 = some '.' ∧
    (mv.2.1 = mv.1.1 + (if piece.isUpper then (-1 : ℤ) else 1) ∨
      (mv.2.1 = mv.1.1 + 2 * (if piece.isUpper then (-1 : ℤ) else 1) ∧
        mv.1.1 = (if piece.isUpper then (6 : ℤ) else 1)))

/-- The number of cells of the board holding the character `x`: the
board's piece multiset, observed through per-character counts. -/
def countCells (b : List (List Char)) (x : Char) : ℕ :=
  (b.map (fun row => row.count x)).sum

/-!
Concrete instances

Small rules-engine instances used to evaluate the search at specific
inputs.  Positions and moves are numeric identifiers; `fen` is the identity
(distinct identifiers are distinct positions, so the identity key collides
only for equal positions, as the interface contract demands).  Leaf
positions carry a self-loop move so that no reachable position has an empty
move list without being flagged game over.
-/

/-- A board with no pieces and no terminal flags: heuristic value 0. -/
def emptyBoard : PyBoard where
  turn := true
  isCheckmate := false
  isStalemate := false
  isInsufficientMaterial := false
  pieceAt := fun _ => none

/-- A board whose only piece is a white pawn on square `sq`, White to move:
heuristic value `100 + pst_pawn(sq)`. -/
def pawnBoard (sq : Fin 64) : PyBoard where
  turn := true
  isCheckmate := false
  isStalemate := false
  isInsufficientMaterial := false
  pieceAt := fun s => if s = sq then some ⟨.pawn, true⟩ else none

/-- A board whose only piece is a white rook on square `sq`, White to move:
with no rook table, its heuristic value is the bare material 500 wherever
the rook stands. -/
def rookBoard (sq : Fin 64) : PyBoard where
  turn := true
  isCheckmate := false
  isStalemate := false
  isInsufficientMaterial := false
  pieceAt := fun s => if s = sq then some ⟨.rook, true⟩ else none

/-- A checkmated position with White to move. -/
def mateWhite : PyBoard where
  turn := true
  isCheckmate := true
  isStalemate := false
  isInsufficientMaterial := false
  pieceAt := fun _ => none

/-- A checkmated position with Black to move. -/
def mateBlack : PyBoard where
  turn := false
  isCheckmate := true
  isStalemate := false
  isInsufficientMaterial := false
  pieceAt := fun _ => none

/-- A three-ply game with a transposition: the root 0 has moves to 1 and 2;
position 4 is reached both from 1 (via move 13) and from 2 (via move 14).
Leaves 6-9 are scored by the supplied views. -/
def gameSkeleton (views : ℕ → PyBoard) : Rules ℕ ℕ ℕ where
  legalMoves := fun p =>
    match p with
    | 0 => [10, 11]
    | 1 => [12, 13]
    | 2 => [14, 15]
    | 3 => [16]
    | 4 => [17, 18]
    | 5 => [19]
    | _ => [20]
  child := fun p m =>
    match p, m with
    | 0, 10 => 1
    | 0, 11 => 2
    | 1, 12 => 3
    | 1, 13 => 4
    | 2, 14 => 4
    | 2, 15 => 5
    | 3, 16 => 6
    | 4, 17 => 7
    | 4, 18 => 8
    | 5, 19 => 9
    | q, _ => q
  fen := fun p => p
  gameOver := fun _ => false
  view := views

/-- Leaf values 0 / 105 / 150 / 110: under these the cutoff inside the
first visit of the transposed node 4 stores the score 105 there, although
its full-width value is 150. -/
def gameA : Rules ℕ ℕ ℕ :=
  gameSkeleton fun p =>
    match p with
    | 7 => pawnBoard 1
    | 8 => pawnBoard 6
    | 9 => pawnBoard 5
    | _ => emptyBoard

/-- Leaf values 0 / 0 / 150 / 105: under these the score cached at the
transposed node 4 depends on which root worker runs first, and the reported
root scores flip the argmax. -/
def gameB : Rules ℕ ℕ ℕ :=
  gameSkeleton fun p =>
    match p with
    | 8 => pawnBoard 6
    | 9 => pawnBoard 1
    | _ => emptyBoard

/-- A root with a single legal move leading to a position in which White is
to move and checkmated, so the one submitted worker reports `-inf`. -/
def gameLoss : Rules ℕ ℕ ℕ where
  legalMoves := fun p => match p with | 0 => [10] | _ => []
  child := fun p m => match p, m with | 0, 10 => 1 | q, _ => q
  fen := fun p => p
  gameOver := fun p => match p with | 0 => false | _ => true
  view := fun p => match p with | 1 => mateWhite | _ => emptyBoard

/-- A depth-2 game on which the shared mutable board makes the chosen
move schedule-dependent: the root 0 (moves 10 and 11) has children 1 and
2, each a self-looping node whose depth-0 view scores 0 (node 1) and 105
(node 2).  Both tasks completing inside their brackets searches the two
children and picks move 11; both tasks running only after the submission
loop searches the popped-back root twice and picks move 10. -/
def gameShared : Rules ℕ ℕ ℕ where
  legalMoves := fun p => match p with | 0 => [10, 11] | 1 => [20] | _ => [21]
  child := fun p m => match p, m with | 0, 10 => 1 | 0, 11 => 2 | q, _ => q
  fen := fun p => p
  gameOver := fun _ => false
  view := fun p => match p with | 2 => pawnBoard 1 | _ => emptyBoard

/-- A one-ply `MoveSpec` instance for `ChessEngine.alpha_beta`: two root
moves whose children evaluate to 3 and 5. -/
def demoMS : MoveSpec ℕ ℕ where
  legalMoves := fun p => match p with | 0 => [10, 11] | _ => []
  child := fun p m => match p, m with | 0, 10 => 1 | 0, 11 => 2 | _, _ => p
  base := fun p => match p with | 1 => Score.int 3 | 2 => Score.int 5 | _ => Score.int 0

/-- A stack-discipline rules engine over move lists: `push` records the
move, `pop` reverts it; `pop (push p mv) = p` holds definitionally. -/
def stackRules : MRules (List ℕ) ℕ (List ℕ) where
  legalMoves := fun _ => [0, 1]
  push := fun p mv => mv :: p
  pop := fun p => p.tail
  fen := fun p => p
  gameOver := fun _ => false
  view := fun _ => emptyBoard

/-!
Pruning correctness

The fail-soft relation between a windowed search result and the full-width
value: a result at or below `alpha` is an upper bound on the value, a
result at or above `beta` is a lower bound, and a result strictly inside
the window is exact.  The loop lemmas propagate this relation through the
pruned folds, and at the full-width window it collapses to equality.
-/

/-- The fail-soft window relation between a pruned result `r` and the
full-width value `v` under the window `(a, b)`. -/
def KM (r v a b : Score) : Prop :=
  (r ≤ a → v ≤ r) ∧ (b ≤ r → r ≤ v) ∧ (a < r → r < b → r = v)

theorem fwMaxL_decomp (g : α → Score) (cs : List α) (x y : Score) :
    fwMaxL g cs (max x y) = max x (fwMaxL g cs y) := by
  induction cs generalizing y with
  | nil => rfl
  | cons c cs ih =>
    show fwMaxL g cs (max (max x y) (g c)) = max x (fwMaxL g cs (max y (g c)))
    rw [max_assoc, ih]

theorem fwMaxL_eq (g : α → Score) (cs : List α) (m : Score) :
    fwMaxL g cs m = max m (fwMaxL g cs ⊥) := by
  rw [← fwMaxL_decomp, max_eq_left bot_le]

theorem le_fwMaxL (g : α → Score) (cs : List α) (m : Score) :
    m ≤ fwMaxL g cs m := by
  rw [fwMaxL_eq]
  exact le_max_left _ _

theorem fwMinL_decomp (g : α → Score) (cs : List α) (x y : Score) :
    fwMinL g cs (min x y) = min x (fwMinL g cs y) := by
  induction cs generalizing y with
  | nil => rfl
  | cons c cs ih =>
    show fwMinL g cs (min (min x y) (g c)) = min x (fwMinL g cs (min y (g c)))
    rw [min_assoc, ih]

theorem fwMinL_eq (g : α → Score) (cs : List α) (m : Score) :
    fwMinL g cs m = min m (fwMinL g cs ⊤) := by
  rw [← fwMinL_decomp, min_eq_left le_top]

theorem fwMinL_le (g : α → Score) (cs : List α) (m : Score) :
    fwMinL g cs m ≤ m := by
  rw [fwMinL_eq]
  exact min_le_left _ _

/-- The pruned maximizing fold preserves the fail-soft window relation:
if every child search satisfies it against the child's full-width value,
the folded result satisfies it against the full-width fold. -/
theorem abMaxL_KM (f : α → Score → Score) (g : α → Score) (beta : Score)
    (hf : ∀ c a', a' < beta → KM (f c a') (g c) a' beta) :
    ∀ (cs : List α) (m a : Score), m ≤ a → a < beta →
      m ≤ abMaxL f beta cs m a ∧ KM (abMaxL f beta cs m a) (fwMaxL g cs m) a beta := by
  intro cs
  induction cs with
  | nil =>
    intro m a _ _
    exact ⟨le_rfl, fun _ => le_rfl, fun _ => le_rfl, fun _ _ => rfl⟩
  | cons c cs ih =>
    intro m a hma hab
    obtain ⟨k1, k2, k3⟩ := hf c a hab
    have hstep : abMaxL f beta (c :: cs) m a =
        if beta ≤ max a (f c a) then max m (f c a)
        else abMaxL f beta cs (max m (f c a)) (max a (f c a)) := rfl
    rw [hstep]
    by_cases hba : beta ≤ max a (f c a)
    · rw [if_pos hba]
      have hr1 : beta ≤ f c a := by
        rcases le_max_iff.mp hba with h | h
        · exact absurd (h.trans_lt hab) (lt_irrefl _)
        · exact h
      have hmr1 : m ≤ f c a := hma.trans (hab.le.trans hr1)
      have hmax : max m (f c a) = f c a := max_eq_right hmr1
      rw [hmax]
      refine ⟨hmr1, ?_, ?_, ?_⟩
      · intro hle
        exact absurd ((hab.trans_le hr1).trans_le hle) (lt_irrefl _)
      · intro _
        calc f c a ≤ g c := k2 hr1
          _ ≤ max m (g c) := le_max_right _ _
          _ ≤ fwMaxL g cs (max m (g c)) := le_fwMaxL _ _ _
      · intro _ h2
        exact absurd (hr1.trans_lt h2) (lt_irrefl _)
    · rw [if_neg hba]
      have hab' : max a (f c a) < beta := not_le.mp hba
      have hmm' : max m (f c a) ≤ max a (f c a) := max_le_max hma le_rfl
      obtain ⟨ih0, ih1, ih2, ih3⟩ := ih (max m (f c a)) (max a (f c a)) hmm' hab'
      have hwform : fwMaxL g (c :: cs) m = max (max m (g c)) (fwMaxL g cs ⊥) := by
        show fwMaxL g cs (max m (g c)) = _
        rw [fwMaxL_eq]
      have hwform' : fwMaxL g cs (max m (f c a)) = max (max m (f c a)) (fwMaxL g cs ⊥) := by
        rw [fwMaxL_eq]
      set r := abMaxL f beta cs (max m (f c a)) (max a (f c a)) with hrdef
      have hmr : m ≤ r := (le_max_left _ _).trans ih0
      have hr1r : f c a ≤ r := (le_max_right _ _).trans ih0
      refine ⟨hmr, ?_, ?_, ?_⟩
      · intro hra
        have hw' : fwMaxL g cs (max m (f c a)) ≤ r := ih1 (hra.trans (le_max_left _ _))
        have hgc : g c ≤ f c a := k1 (hr1r.trans hra)
        rw [hwform]
        calc max (max m (g c)) (fwMaxL g cs ⊥)
            ≤ max (max m (f c a)) (fwMaxL g cs ⊥) :=
              max_le_max (max_le_max le_rfl hgc) le_rfl
          _ = fwMaxL g cs (max m (f c a)) := hwform'.symm
          _ ≤ r := hw'
      · intro hbr
        have hrw' : r ≤ fwMaxL g cs (max m (f c a)) := ih2 hbr
        rw [hwform'] at hrw'
        rw [hwform]
        rcases le_max_iff.mp hrw' with h | h
        · rcases le_max_iff.mp h with h' | h'
          · exact absurd ((hab.trans_le hbr).trans_le (h'.trans hma)) (lt_irrefl _)
          · have : f c a ≤ g c := k2 (hbr.trans h')
            exact (h'.trans this).trans ((le_max_right _ _).trans (le_max_left _ _))
        · exact h.trans (le_max_right _ _)
      · intro h1 h2
        by_cases hra' : r ≤ max a (f c a)
        · have hw' : fwMaxL g cs (max m (f c a)) ≤ r := ih1 hra'
          have hrr1 : r ≤ f c a := by
            rcases le_max_iff.mp hra' with h | h
            · exact absurd (h1.trans_le h) (lt_irrefl _)
            · exact h
          have hreq : r = f c a := le_antisymm hrr1 hr1r
          have hgc : f c a = g c := k3 (hreq ▸ h1) (hreq ▸ h2)
          rw [hwform]
          refine le_antisymm ?_ ?_
          · calc r = g c := hreq.trans hgc
              _ ≤ max (max m (g c)) (fwMaxL g cs ⊥) :=
                (le_max_right _ _).trans (le_max_left _ _)
          · have : max (max m (g c)) (fwMaxL g cs ⊥) = fwMaxL g cs (max m (f c a)) := by
              rw [hwform', hgc]
            rw [this]
            exact hw'
        · have hreq : r = fwMaxL g cs (max m (f c a)) := ih3 (not_le.mp hra') h2
          have hgcr : g c ≤ r := by
            by_cases hr1a : f c a ≤ a
            · exact (k1 hr1a).trans hr1r
            · have hr1b : f c a < beta := hr1r.trans_lt h2
              exact (k3 (not_le.mp hr1a) hr1b) ▸ hr1r
          have hSr : fwMaxL g cs ⊥ ≤ r := by
            rw [hreq, hwform']
            exact le_max_right _ _
          rw [hwform]
          refine le_antisymm ?_ (max_le (max_le hmr hgcr) hSr)
          have hrcases : r ≤ max (max m (f c a)) (fwMaxL g cs ⊥) := by
            rw [← hwform']
            exact hreq.le
          rcases le_max_iff.mp hrcases with h | h
          · rcases le_max_iff.mp h with h' | h'
            · exact absurd ((hma.trans_lt h1).trans_le h') (lt_irrefl _)
            · have hreq1 : r = f c a := le_antisymm h' hr1r
              have : f c a = g c := k3 (hreq1 ▸ h1) (hreq1 ▸ h2)
              rw [hreq1, this]
              exact (le_max_right _ _).trans (le_max_left _ _)
          · exact h.trans (le_max_right _ _)

/-- The pruned minimizing fold preserves the fail-soft window relation,
dually to `abMaxL_KM`. -/
theorem abMinL_KM (f : α → Score → Score) (g : α → Score) (alpha : Score)
    (hf : ∀ c b', alpha < b' → KM (f c b') (g c) alpha b') :
    ∀ (cs : List α) (m b : Score), b ≤ m → alpha < b →
      abMinL f alpha cs m b ≤ m ∧ KM (abMinL f alpha cs m b) (fwMinL g cs m) alpha b := by
  intro cs
  induction cs with
  | nil =>
    intro m b _ _
    exact ⟨le_rfl, fun _ => le_rfl, fun _ => le_rfl, fun _ _ => rfl⟩
  | cons c cs ih =>
    intro m b hbm hab
    obtain ⟨k1, k2, k3⟩ := hf c b hab
    have hstep : abMinL f alpha (c :: cs) m b =
        if min b (f c b) ≤ alpha then min m (f c b)
        else abMinL f alpha cs (min m (f c b)) (min b (f c b)) := rfl
    rw [hstep]
    by_cases hba : min b (f c b) ≤ alpha
    · rw [if_pos hba]
      have hr1 : f c b ≤ alpha := by
        rcases min_le_iff.mp hba with h | h
        · exact absurd (hab.trans_le h) (lt_irrefl _)
        · exact h
      have hmr1 : f c b ≤ m := hr1.trans (hab.le.trans hbm)
      have hmin : min m (f c b) = f c b := min_eq_right hmr1
      rw [hmin]
      refine ⟨hmr1, ?_, ?_, ?_⟩
      · intro _
        calc fwMinL g cs (min m (g c)) ≤ min m (g c) := fwMinL_le _ _ _
          _ ≤ g c := min_le_right _ _
          _ ≤ f c b := k1 hr1
      · intro hbr
        exact absurd ((hab.trans_le hbr).trans_le hr1) (lt_irrefl _)
      · intro h1 _
        exact absurd (h1.trans_le hr1) (lt_irrefl _)
    · rw [if_neg hba]
      have hab' : alpha < min b (f c b) := not_le.mp hba
      have hmm' : min b (f c b) ≤ min m (f c b) := min_le_min hbm le_rfl
      obtain ⟨ih0, ih1, ih2, ih3⟩ := ih (min m (f c b)) (min b (f c b)) hmm' hab'
      have hwform : fwMinL g (c :: cs) m = min (min m (g c)) (fwMinL g cs ⊤) := by
        show fwMinL g cs (min m (g c)) = _
        rw [fwMinL_eq]
      have hwform' : fwMinL g cs (min m (f c b)) = min (min m (f c b)) (fwMinL g cs ⊤) := by
        rw [fwMinL_eq]
      set r := abMinL f alpha cs (min m (f c b)) (min b (f c b)) with hrdef
      have hmr : r ≤ m := ih0.trans (min_le_left _ _)
      have hr1r : r ≤ f c b := ih0.trans (min_le_right _ _)
      refine ⟨hmr, ?_, ?_, ?_⟩
      · intro hra
        have hrw' : fwMinL g cs (min m (f c b)) ≤ r := ih1 hra
        rw [hwform'] at hrw'
        rw [hwform]
        rcases min_le_iff.mp hrw' with h | h
        · rcases min_le_iff.mp h with h' | h'
          · exact absurd ((hab.trans_le hbm).trans_le (h'.trans hra)) (lt_irrefl _)
          · have : g c ≤ f c b := k1 (h'.trans hra)
            exact ((min_le_left _ _).trans (min_le_right _ _)).trans (this.trans h')
        · exact (min_le_right _ _).trans h
      · intro hbr
        have hw' : r ≤ fwMinL g cs (min m (f c b)) := ih2 ((min_le_left _ _).trans hbr)
        have hgc : f c b ≤ g c := k2 (hbr.trans hr1r)
        rw [hwform]
        calc r ≤ fwMinL g cs (min m (f c b)) := hw'
          _ = min (min m (f c b)) (fwMinL g cs ⊤) := hwform'
          _ ≤ min (min m (g c)) (fwMinL g cs ⊤) :=
            min_le_min (min_le_min le_rfl hgc) le_rfl
      · intro h1 h2
        by_cases hrb' : min b (f c b) ≤ r
        · have hw' : r ≤ fwMinL g cs (min m (f c b)) := ih2 hrb'
          have hrr1 : f c b ≤ r := by
            rcases min_le_iff.mp hrb' with h | h
            · exact absurd (h2.trans_le h) (lt_irrefl _)
            · exact h
          have hreq : r = f c b := le_antisymm hr1r hrr1
          have hgc : f c b = g c := k3 (hreq ▸ h1) (hreq ▸ h2)
          rw [hwform]
          refine le_antisymm ?_ ?_
          · have : min (min m (g c)) (fwMinL g cs ⊤) = fwMinL g cs (min m (f c b)) := by
              rw [hwform', hgc]
            rw [this]
            exact hw'
          · calc min (min m (g c)) (fwMinL g cs ⊤)
                ≤ g c := (min_le_left _ _).trans (min_le_right _ _)
              _ = r := (hreq.trans hgc).symm
        · have hreq : r = fwMinL g cs (min m (f c b)) := ih3 h1 (not_le.mp hrb')
          have hgcr : r ≤ g c := by
            by_cases hr1b : b ≤ f c b
            · exact hr1r.trans (k2 hr1b)
            · exact (k3 (h1.trans_le hr1r) (not_le.mp hr1b)) ▸ hr1r
          have hSr : r ≤ fwMinL g cs ⊤ := by
            rw [hreq, hwform']
            exact min_le_right _ _
          rw [hwform]
          refine le_antisymm (le_min (le_min hmr hgcr) hSr) ?_
          have hrcases : min (min m (f c b)) (fwMinL g cs ⊤) ≤ r := by
            rw [← hwform']
            exact hreq.ge
          rcases min_le_iff.mp hrcases with h | h
          · rcases min_le_iff.mp h with h' | h'
            · exact absurd ((h2.trans_le hbm).trans_le h' : r < r) (lt_irrefl _)
            · have hreq1 : r = f c b := le_antisymm hr1r h'
              have : f c b = g c := k3 (hreq1 ▸ h1) (hreq1 ▸ h2)
              rw [hreq1, this]
              exact (min_le_left _ _).trans (min_le_right _ _)
          · exact (min_le_right _ _).trans h

/-- Every windowed search result is fail-soft correct against the
full-width value of the same node. -/
theorem ab_KM (S : SearchSpec Pos) :
    ∀ (d : ℕ) (p : Pos) (a b : Score) (maximizing : Bool), a < b →
      KM (ab S d p a b maximizing) (fw S d p maximizing) a b := by
  intro d
  induction d with
  | zero =>
    intro p a b maximizing _
    exact ⟨fun _ => le_rfl, fun _ => le_rfl, fun _ _ => rfl⟩
  | succ d ih =>
    intro p a b maximizing hab
    by_cases hstop : S.stop p
    · have h1 : ab S (d + 1) p a b maximizing = S.base p := by
        simp [ab, hstop]
      have h2 : fw S (d + 1) p maximizing = S.base p := by
        simp [fw, hstop]
      rw [h1, h2]
      exact ⟨fun _ => le_rfl, fun _ => le_rfl, fun _ _ => rfl⟩
    · cases maximizing with
      | true =>
        have h1 : ab S (d + 1) p a b true =
            abMaxL (fun c a' => ab S d c a' b false) b (S.children p) ⊥ a := by
          simp [ab, hstop]
        have h2 : fw S (d + 1) p true =
            fwMaxL (fun c => fw S d c false) (S.children p) ⊥ := by
          simp [fw, hstop]
        rw [h1, h2]
        exact (abMaxL_KM _ _ b (fun c a' h => ih c a' b false h)
          (S.children p) ⊥ a bot_le hab).2
      | false =>
        have h1 : ab S (d + 1) p a b false =
            abMinL (fun c b' => ab S d c a b' true) a (S.children p) ⊤ b := by
          simp [ab, hstop]
        have h2 : fw S (d + 1) p false =
            fwMinL (fun c => fw S d c true) (S.children p) ⊤ := by
          simp [fw, hstop]
        rw [h1, h2]
        exact (abMinL_KM _ _ a (fun c b' h => ih c a b' true h)
          (S.children p) ⊤ b le_top hab).2

/-- C1 (amended): for the cache-free search of either engine variant —
any `SearchSpec`, covering `ChessEngine.alpha_beta` and
`AiymaChessZero.minimax` with the cache stripped — the score computed with
alpha-beta pruning at full-width root bounds equals the score of the same
search with pruning disabled, for every position, depth, and node role:
the cutoff never changes the value. -/
theorem alpha_beta_eq_full_width (S : SearchSpec Pos) (d : ℕ) (p : Pos)
    (maximizing : Bool) : ab S d p ⊥ ⊤ maximizing = fw S d p maximizing := by
  obtain ⟨k1, k2, k3⟩ := ab_KM S d p ⊥ ⊤ maximizing Score.bot_lt_top
  rcases (bot_le : (⊥ : Score) ≤ ab S d p ⊥ ⊤ maximizing).eq_or_lt with h | h
  · exact le_antisymm (h ▸ bot_le) (k1 h.ge)
  · rcases lt_or_eq_of_le (le_top : ab S d p ⊥ ⊤ maximizing ≤ ⊤) with h2 | h2
    · exact k3 h h2
    · exact le_antisymm (k2 h2.ge) (h2.symm ▸ le_top)

/-- C1 (counterexample): with the transposition cache active, as
`AiymaChessZero.minimax` ships it, pruning does change the computed value:
on the three-ply game `gameA` the pruned search stores the cutoff score 105
at the transposed node and later reuses it under a wider window, returning
105, while the same cached search with pruning disabled returns the true
value 110. -/
theorem pruning_changes_value_under_cache :
    (minimaxC gameA 3 0 ⊥ ⊤ true []).1 = Score.int 105 ∧
    (minimaxFWC gameA 3 0 ⊥ ⊤ true []).1 = Score.int 110 ∧
    (minimaxC gameA 3 0 ⊥ ⊤ true []).1 ≠ (minimaxFWC gameA 3 0 ⊥ ⊤ true []).1 := by
  refine ⟨by decide, by decide, by decide⟩

/-- C3 (code bug): caching by `(position identity, depth)` alone is not
observationally transparent: on `gameA` at depth 3 the cache-enabled search
returns 105 — the score cached at the transposed node under a cutoff
window is reused under a wider window — while the cache-disabled search
returns 110. -/
theorem cache_changes_score :
    (minimaxC gameA 3 0 ⊥ ⊤ true []).1 = Score.int 105 ∧
    minimaxNC gameA 3 0 ⊥ ⊤ true = Score.int 110 ∧
    (minimaxC gameA 3 0 ⊥ ⊤ true []).1 ≠ minimaxNC gameA 3 0 ⊥ ⊤ true := by
  refine ⟨by decide, by decide, by decide⟩

/-- C6: if no legal root moves exist, `get_best_move` reports no move
(`None`) and submits no work to the worker pool: the reported pair list is
empty, for every depth, schedule, and initial cache. -/
theorem get_best_move_no_moves [DecidableEq K] (R : Rules Pos Move K) (p : Pos)
    (h : R.legalMoves p = []) (depth : ℕ) (pi : List ℕ) (t0 : Table K) :
    get_best_move R p depth pi t0 = none ∧ reportedPairs R p depth pi t0 = [] := by
  have hrp : reportedPairs R p depth pi t0 = [] := by
    simp [reportedPairs, h]
  refine ⟨?_, hrp⟩
  show (reduceBest (reportedPairs R p depth pi t0)).2 = none
  rw [hrp]
  rfl

/-- Witness for C6 at a concrete checkmated position with no legal
moves. -/
theorem get_best_move_no_moves_witness :
    get_best_move gameLoss 1 3 [] [] = none ∧ reportedPairs gameLoss 1 3 [] [] = [] :=
  get_best_move_no_moves gameLoss 1 rfl 3 [] []

theorem reduceStep_none {Move : Type} (e : Score) (mo : Option Move) (mv : Move) :
    reduceStep (e, mo) (mv, none) = (e, mo) := rfl

theorem reduceStep_some {Move : Type} (e : Score) (mo : Option Move) (mv : Move)
    (v : Score) :
    reduceStep (e, mo) (mv, some v) = if e < v then (v, some mv) else (e, mo) := rfl

theorem maxReported_cons_none {Move : Type} (mv : Move)
    (l : List (Move × Option Score)) :
    maxReported ((mv, none) :: l) = maxReported l := rfl

theorem maxReported_cons_some {Move : Type} (mv : Move) (v : Score)
    (l : List (Move × Option Score)) :
    maxReported ((mv, some v) :: l) = max v (maxReported l) := rfl

/-- If no remaining result beats the running best, the reduction keeps the
running pair untouched. -/
theorem reduceFold_no_improve {Move : Type} :
    ∀ (l : List (Move × Option Score)) (e : Score) (mo : Option Move),
      maxReported l ≤ e → List.foldl reduceStep (e, mo) l = (e, mo) := by
  intro l
  induction l with
  | nil => intro e mo _; rfl
  | cons pr l ih =>
    intro e mo h
    obtain ⟨mv, ov⟩ := pr
    cases ov with
    | none =>
      rw [List.foldl_cons, reduceStep_none]
      exact ih e mo (le_of_eq_of_le (maxReported_cons_none mv l).symm h)
    | some v =>
      rw [maxReported_cons_some] at h
      rw [List.foldl_cons, reduceStep_some,
        if_neg (not_lt.mpr ((le_max_left _ _).trans h))]
      exact ih e mo ((le_max_right _ _).trans h)

theorem findBest_cons_eq {Move : Type} (mv : Move) (v : Score)
    (l : List (Move × Option Score)) :
    (((mv, some v) :: l).find? fun pr => pr.2 = some v) = some (mv, some v) := by
  apply List.find?_cons_of_pos
  simp

theorem findBest_cons_ne {Move : Type} (mv : Move) (v M : Score) (hne : v ≠ M)
    (l : List (Move × Option Score)) :
    (((mv, some v) :: l).find? fun pr => pr.2 = some M) =
      (l.find? fun pr => pr.2 = some M) := by
  apply List.find?_cons_of_neg
  simp [hne]

/-- If some remaining result strictly beats the running best, the reduction
ends at the maximum reported score paired with the earliest move that
attains it. -/
theorem reduceFold_first_max {Move : Type} :
    ∀ (l : List (Move × Option Score)) (e : Score) (mo : Option Move),
      (∀ pr ∈ l, pr.2.isSome) → e < maxReported l →
      List.foldl reduceStep (e, mo) l =
        (maxReported l, (l.find? fun pr => pr.2 = some (maxReported l)).map Prod.fst) := by
  intro l
  induction l with
  | nil => intro e mo _ h; exact absurd h (not_lt.mpr bot_le)
  | cons pr l ih =>
    intro e mo hall h
    obtain ⟨mv, ov⟩ := pr
    cases ov with
    | none =>
      have := hall (mv, none) (List.mem_cons_self _ _)
      simp at this
    | some v =>
      have htail : ∀ pr ∈ l, pr.2.isSome := fun pr hpr =>
        hall pr (List.mem_cons_of_mem _ hpr)
      rw [List.foldl_cons, reduceStep_some]
      by_cases hml : maxReported l ≤ v
      · have hMv : maxReported ((mv, some v) :: l) = v :=
          (maxReported_cons_some mv v l).trans (max_eq_left hml)
        have hev : e < v := hMv ▸ h
        rw [if_pos hev, reduceFold_no_improve l v (some mv) hml, hMv,
          findBest_cons_eq]
        rfl
      · have hlv : v < maxReported l := not_le.mp hml
        have hMl : maxReported ((mv, some v) :: l) = maxReported l :=
          (maxReported_cons_some mv v l).trans (max_eq_right hlv.le)
        rw [hMl] at h ⊢
        rw [findBest_cons_ne mv v (maxReported l) (ne_of_lt hlv)]
        by_cases hev : e < v
        · rw [if_pos hev]
          exact ih v (some mv) htail hlv
        · rw [if_neg hev]
          exact ih e mo htail h

theorem ite_lt_max (m r : Score) : (if m < r then r else m) = max m r := by
  rcases le_or_lt r m with h | h
  · rw [if_neg (not_lt.mpr h), max_eq_left h]
  · rw [if_pos h, max_eq_right h.le]

theorem ite_lt_min (m r : Score) : (if r < m then r else m) = min m r := by
  rcases le_or_lt m r with h | h
  · rw [if_neg (not_lt.mpr h), min_eq_left h]
  · rw [if_pos h, min_eq_right h.le]

/-- The score component of the move-tracking maximizing loop is the plain
pruned loop: `if eval > max_eval: max_eval = eval` computes the running
maximum. -/
theorem abmMaxL_fst (f : α → Score → Score) (beta : Score) :
    ∀ (mvs : List α) (m : Score) (bm : Option α) (a : Score),
      (abmMaxL f beta mvs m bm a).1 = abMaxL f beta mvs m a := by
  intro mvs
  induction mvs with
  | nil => intro m bm a; rfl
  | cons mv mvs ih =>
    intro m bm a
    simp only [abmMaxL, abMaxL]
    by_cases hb : beta ≤ max a (f mv a)
    · rw [if_pos hb, if_pos hb]
      exact ite_lt_max m (f mv a)
    · rw [if_neg hb, if_neg hb, ih, ite_lt_max]

/-- The score component of the move-tracking minimizing loop is the plain
pruned loop. -/
theorem abmMinL_fst (f : α → Score → Score) (alpha : Score) :
    ∀ (mvs : List α) (m : Score) (bm : Option α) (b : Score),
      (abmMinL f alpha mvs m bm b).1 = abMinL f alpha mvs m b := by
  intro mvs
  induction mvs with
  | nil => intro m bm b; rfl
  | cons mv mvs ih =>
    intro m bm b
    simp only [abmMinL, abMinL]
    by_cases hb : min b (f mv b) ≤ alpha
    · rw [if_pos hb, if_pos hb]
      exact ite_lt_min m (f mv b)
    · rw [if_neg hb, if_neg hb, ih, ite_lt_min]

theorem abMaxL_map (f : β → Score → Score) (h : α → β) (beta : Score) :
    ∀ (l : List α) (m a : Score),
      abMaxL f beta (l.map h) m a = abMaxL (fun x a' => f (h x) a') beta l m a := by
  intro l
  induction l with
  | nil => intro m a; rfl
  | cons c l ih =>
    intro m a
    simp only [List.map_cons, abMaxL]
    by_cases hb : beta ≤ max a (f (h c) a)
    · rw [if_pos hb, if_pos hb]
    · rw [if_neg hb, if_neg hb, ih]

theorem abMinL_map (f : β → Score → Score) (h : α → β) (alpha : Score) :
    ∀ (l : List α) (m b : Score),
      abMinL f alpha (l.map h) m b = abMinL (fun x b' => f (h x) b') alpha l m b := by
  intro l
  induction l with
  | nil => intro m b; rfl
  | cons c l ih =>
    intro m b
    simp only [List.map_cons, abMinL]
    by_cases hb : min b (f (h c) b) ≤ alpha
    · rw [if_pos hb, if_pos hb]
    · rw [if_neg hb, if_neg hb, ih]

/-- The score returned by `ChessEngine.alpha_beta` is the score of the
pure pruned search `ab` over the induced `SearchSpec`: tracking
`best_move` does not change `max_eval` / `min_eval`. -/
theorem alpha_beta_fst (S : MoveSpec Pos Move) :
    ∀ (d : ℕ) (p : Pos) (a b : Score) (maximizing : Bool),
      (alpha_beta S d p a b maximizing).1 =
        ab (specOfMoveSpec S) d p a b maximizing := by
  intro d
  induction d with
  | zero => intro p a b maximizing; rfl
  | succ d ih =>
    intro p a b maximizing
    by_cases hmv : S.legalMoves p = []
    · have hmvE : (S.legalMoves p).isEmpty = true := by
        rw [hmv]
        rfl
      have h1 : alpha_beta S (d + 1) p a b maximizing =
          ((if maximizing then ⊥ else ⊤), none) := by
        simp only [alpha_beta]
        rw [if_pos hmvE]
      rw [h1]
      cases maximizing with
      | true =>
        have h2 : ab (specOfMoveSpec S) (d + 1) p a b true = ⊥ := by
          show abMaxL (fun c a' => ab (specOfMoveSpec S) d c a' b false) b
            ((S.legalMoves p).map (S.child p)) ⊥ a = ⊥
          rw [hmv]
          rfl
        rw [h2]
        rfl
      | false =>
        have h2 : ab (specOfMoveSpec S) (d + 1) p a b false = ⊤ := by
          show abMinL (fun c b' => ab (specOfMoveSpec S) d c a b' true) a
            ((S.legalMoves p).map (S.child p)) ⊤ b = ⊤
          rw [hmv]
          rfl
        rw [h2]
        rfl
    · have hmvE : ¬ (S.legalMoves p).isEmpty = true := by
        simp [hmv]
      cases maximizing with
      | true =>
        have h1 : alpha_beta S (d + 1) p a b true =
            abmMaxL (fun mv a' => (alpha_beta S d (S.child p mv) a' b false).1) b
              (S.legalMoves p) ⊥ none a := by
          simp only [alpha_beta]
          rw [if_neg hmvE]
          rfl
        have h2 : ab (specOfMoveSpec S) (d + 1) p a b true =
            abMaxL (fun c a' => ab (specOfMoveSpec S) d c a' b false) b
              ((S.legalMoves p).map (S.child p)) ⊥ a := rfl
        rw [h1, h2, abmMaxL_fst, abMaxL_map]
        have hfun : (fun mv a' => (alpha_beta S d (S.child p mv) a' b false).1) =
            fun mv a' => ab (specOfMoveSpec S) d (S.child p mv) a' b false :=
          funext fun mv => funext fun a' => ih (S.child p mv) a' b false
        rw [hfun]
      | false =>
        have h1 : alpha_beta S (d + 1) p a b false =
            abmMinL (fun mv b' => (alpha_beta S d (S.child p mv) a b' true).1) a
              (S.legalMoves p) ⊤ none b := by
          simp only [alpha_beta]
          rw [if_neg hmvE]
          rfl
        have h2 : ab (specOfMoveSpec S) (d + 1) p a b false =
            abMinL (fun c b' => ab (specOfMoveSpec S) d c a b' true) a
              ((S.legalMoves p).map (S.child p)) ⊤ b := rfl
        rw [h1, h2, abmMinL_fst, abMinL_map]
        have hfun : (fun mv b' => (alpha_beta S d (S.child p mv) a b' true).1) =
            fun mv b' => ab (specOfMoveSpec S) d (S.child p mv) a b' true :=
          funext fun mv => funext fun b' => ih (S.child p mv) a b' true
        rw [hfun]

theorem fwMaxL_append (g : α → Score) :
    ∀ (l1 l2 : List α) (m : Score),
      fwMaxL g (l1 ++ l2) m = fwMaxL g l2 (fwMaxL g l1 m) := by
  intro l1
  induction l1 with
  | nil => intro l2 m; rfl
  | cons c l1 ih =>
    intro l2 m
    simp only [List.cons_append, fwMaxL]
    exact ih l2 (max m (g c))

/-- `fwMaxL` bounds the value of every listed element. -/
theorem fwMaxL_mem_le (g : α → Score) :
    ∀ (l : List α) (m : Score) (c : α), c ∈ l → g c ≤ fwMaxL g l m := by
  intro l
  induction l with
  | nil =>
    intro m c hc
    exact absurd hc (List.not_mem_nil c)
  | cons c' l ih =>
    intro m c hc
    rcases List.mem_cons.mp hc with h | h
    · rw [h]
      show g c' ≤ fwMaxL g l (max m (g c'))
      exact le_trans (le_max_right m (g c')) (le_fwMaxL g l (max m (g c')))
    · exact ih (max m (g c')) c h

/-- `fwMaxL` either keeps its seed or is attained by a listed element. -/
theorem fwMaxL_attains (g : α → Score) :
    ∀ (l : List α) (m : Score),
      fwMaxL g l m = m ∨ ∃ c ∈ l, g c = fwMaxL g l m := by
  intro l
  induction l with
  | nil => intro m; exact Or.inl rfl
  | cons c l ih =>
    intro m
    show fwMaxL g l (max m (g c)) = m ∨
      ∃ x ∈ c :: l, g x = fwMaxL g l (max m (g c))
    rcases ih (max m (g c)) with h | ⟨x, hx, hgx⟩
    · rw [h]
      rcases max_choice m (g c) with h2 | h2
      · exact Or.inl h2
      · exact Or.inr ⟨c, List.mem_cons_self c l, h2.symm⟩
    · exact Or.inr ⟨x, List.mem_cons_of_mem c hx, hgx⟩

/-- The first-best invariant of the maximizing loop of
`ChessEngine.alpha_beta` at a root window `(-inf, +inf)`: run with `alpha`
equal to the running `max_eval` (at the root the two coincide, both
starting at `-inf`) and `beta = +inf`, against any child search `f` that
is fail-soft for the true child values `g`, the loop computes the
full-width maximum of the values of all moves and selects the earliest
move attaining it — or selects no move at all when that maximum is
`-inf`, because `eval > max_eval` never fires. -/
theorem abmMaxL_first (f : α → Score → Score) (g : α → Score)
    (hf : ∀ mv a', a' < ⊤ →
      (f mv a' ≤ a' → g mv ≤ f mv a') ∧ (a' < f mv a' → f mv a' = g mv)) :
    ∀ (mvs processed : List α) (m : Score) (bm : Option α),
      m < ⊤ → m = fwMaxL g processed ⊥ →
      (⊥ < m → bm = processed.find? fun mv => g mv = m) →
      (m = ⊥ → bm = none) →
      (abmMaxL f ⊤ mvs m bm m).1 = fwMaxL g (processed ++ mvs) ⊥ ∧
      (⊥ < (abmMaxL f ⊤ mvs m bm m).1 →
        (abmMaxL f ⊤ mvs m bm m).2 =
          (processed ++ mvs).find? fun mv => g mv = (abmMaxL f ⊤ mvs m bm m).1) ∧
      ((abmMaxL f ⊤ mvs m bm m).1 = ⊥ → (abmMaxL f ⊤ mvs m bm m).2 = none) := by
  intro mvs
  induction mvs with
  | nil =>
    intro processed m bm hmtop hm hbm hbm0
    refine ⟨?_, ?_, ?_⟩
    · show m = fwMaxL g (processed ++ []) ⊥
      rw [List.append_nil]
      exact hm
    · intro hpos
      rw [List.append_nil]
      exact hbm hpos
    · exact hbm0
  | cons mv mvs ih =>
    intro processed m bm hmtop hm hbm hbm0
    obtain ⟨hle, hgt⟩ := hf mv m hmtop
    by_cases hlt : m < f mv m
    · have hval : f mv m = g mv := hgt hlt
      by_cases htop : f mv m = ⊤
      · have hbrk : (⊤ : Score) ≤ max m (f mv m) := by
          rw [htop]
          exact le_max_right _ _
        have hres : abmMaxL f ⊤ (mv :: mvs) m bm m = (f mv m, some mv) := by
          simp only [abmMaxL]
          rw [if_pos hbrk, if_pos hlt, if_pos hlt]
        have hc1 : f mv m = fwMaxL g (processed ++ mv :: mvs) ⊥ := by
          have hmem : mv ∈ processed ++ mv :: mvs :=
            List.mem_append_right processed (List.mem_cons_self mv mvs)
          have hge : (⊤ : Score) ≤ fwMaxL g (processed ++ mv :: mvs) ⊥ := by
            rw [← htop, hval]
            exact fwMaxL_mem_le g (processed ++ mv :: mvs) ⊥ mv hmem
          rw [htop]
          exact (le_antisymm le_top hge).symm
        have hc2 : (some mv : Option α) =
            (processed ++ mv :: mvs).find? fun x => g x = f mv m := by
          have hnone : (processed.find? fun x => g x = f mv m) = none := by
            rw [List.find?_eq_none]
            intro x hx
            simp only [decide_eq_true_eq]
            intro hgx
            have hxm : g x ≤ m := by
              rw [hm]
              exact fwMaxL_mem_le g processed ⊥ x hx
            rw [hgx] at hxm
            exact absurd hlt (not_lt.mpr hxm)
          rw [List.find?_append, hnone, Option.none_or]
          symm
          apply List.find?_cons_of_pos
          simp [hval]
        rw [hres]
        refine ⟨hc1, fun _ => hc2, fun hbot => ?_⟩
        have hbot' : f mv m = ⊥ := hbot
        rw [htop] at hbot'
        exact absurd hbot' Score.bot_lt_top.ne'
      · have hrtop : f mv m < ⊤ := lt_of_le_of_ne le_top htop
        have hmax : max m (f mv m) = f mv m := max_eq_right hlt.le
        have hnbrk : ¬ (⊤ : Score) ≤ max m (f mv m) := by
          rw [hmax]
          exact not_le.mpr hrtop
        have hres : abmMaxL f ⊤ (mv :: mvs) m bm m =
            abmMaxL f ⊤ mvs (f mv m) (some mv) (f mv m) := by
          simp only [abmMaxL]
          rw [if_neg hnbrk, if_pos hlt, if_pos hlt, hmax]
        have hm' : f mv m = fwMaxL g (processed ++ [mv]) ⊥ := by
          rw [fwMaxL_append]
          show f mv m = max (fwMaxL g processed ⊥) (g mv)
          rw [← hm, ← hval, hmax]
        have hbm' : ⊥ < f mv m →
            (some mv : Option α) = (processed ++ [mv]).find? fun x => g x = f mv m := by
          intro _
          have hnone : (processed.find? fun x => g x = f mv m) = none := by
            rw [List.find?_eq_none]
            intro x hx
            simp only [decide_eq_true_eq]
            intro hgx
            have hxm : g x ≤ m := by
              rw [hm]
              exact fwMaxL_mem_le g processed ⊥ x hx
            rw [hgx] at hxm
            exact absurd hlt (not_lt.mpr hxm)
          rw [List.find?_append, hnone, Option.none_or]
          symm
          apply List.find?_cons_of_pos
          simp [hval]
        have hbm0' : f mv m = ⊥ → (some mv : Option α) = none := by
          intro hbot
          rw [hbot] at hlt
          exact absurd hlt (not_lt.mpr bot_le)
        have happ : processed ++ mv :: mvs = (processed ++ [mv]) ++ mvs := by
          rw [List.append_assoc, List.singleton_append]
        rw [hres, happ]
        exact ih (processed ++ [mv]) (f mv m) (some mv) hrtop hm' hbm' hbm0'
    · have hrle : f mv m ≤ m := not_lt.mp hlt
      have hgle : g mv ≤ m := le_trans (hle hrle) hrle
      have hmax : max m (f mv m) = m := max_eq_left hrle
      have hnbrk : ¬ (⊤ : Score) ≤ max m (f mv m) := by
        rw [hmax]
        exact not_le.mpr hmtop
      have hres : abmMaxL f ⊤ (mv :: mvs) m bm m = abmMaxL f ⊤ mvs m bm m := by
        simp only [abmMaxL]
        rw [if_neg hnbrk, if_neg hlt, if_neg hlt, hmax]
      have hm' : m = fwMaxL g (processed ++ [mv]) ⊥ := by
        rw [fwMaxL_append]
        show m = max (fwMaxL g processed ⊥) (g mv)
        rw [← hm, max_eq_left hgle]
      have hbm' : ⊥ < m → bm = (processed ++ [mv]).find? fun x => g x = m := by
        intro hpos
        rcases fwMaxL_attains g processed ⊥ with hat | ⟨x, hx, hgx⟩
        · rw [← hm] at hat
          exact absurd hat (ne_of_gt hpos)
        · rw [← hm] at hgx
          have hiss : (processed.find? fun c => g c = m).isSome := by
            rw [List.find?_isSome]
            exact ⟨x, hx, by simp [hgx]⟩
          obtain ⟨y, hy⟩ := Option.isSome_iff_exists.mp hiss
          rw [List.find?_append, hy, Option.or_some, hbm hpos, hy]
      have happ : processed ++ mv :: mvs = (processed ++ [mv]) ++ mvs := by
        rw [List.append_assoc, List.singleton_append]
      rw [hres, happ]
      exact ih (processed ++ [mv]) m bm hmtop hm' hbm' hbm0

/-- C5 (amended): both move selectors keep the earliest best-scoring move
whenever any move strictly beats `-inf`, and select no move at all when
every score is `-inf`.  Part 1, `AiymaChessZero.get_best_move`: whenever
every submitted root search reports a score and the maximum reported
score exceeds `-inf`, the returned move is the earliest move in
submission order whose reported score equals that maximum.  Part 2,
`ChessEngine.alpha_beta` as the root dispatcher invokes it (full-width
window, maximizing, nonzero depth): whenever the returned score exceeds
`-inf`, the returned move is the earliest legal move whose full-width
subtree value equals that score.  (When every score is `-inf` the
`eval > best_eval` / `eval > max_eval` update never fires and `None` is
returned instead; see the counterexample.) -/
theorem tie_break_keeps_first_best :
    (∀ (Pos Move K : Type) [DecidableEq K] (R : Rules Pos Move K) (p : Pos)
      (depth : ℕ) (pi : List ℕ) (t0 : Table K),
      (∀ pr ∈ reportedPairs R p depth pi t0, pr.2.isSome) →
      ⊥ < maxReported (reportedPairs R p depth pi t0) →
      get_best_move R p depth pi t0 = firstBest (reportedPairs R p depth pi t0)) ∧
    (∀ (Pos Move : Type) (S : MoveSpec Pos Move) (d : ℕ) (p : Pos),
      ⊥ < (alpha_beta S (d + 1) p ⊥ ⊤ true).1 →
      (alpha_beta S (d + 1) p ⊥ ⊤ true).2 =
        (S.legalMoves p).find? fun mv =>
          fw (specOfMoveSpec S) d (S.child p mv) false =
            (alpha_beta S (d + 1) p ⊥ ⊤ true).1) := by
  constructor
  · intro Pos Move K instK R p depth pi t0 hall hmax
    show (reduceBest (reportedPairs R p depth pi t0)).2 = _
    show (List.foldl reduceStep (⊥, none) (reportedPairs R p depth pi t0)).2 = _
    rw [reduceFold_first_max (reportedPairs R p depth pi t0) ⊥ none hall hmax]
    rfl
  · intro Pos Move S d p hbest
    by_cases hmv : S.legalMoves p = []
    · exfalso
      have hmvE : (S.legalMoves p).isEmpty = true := by
        rw [hmv]
        rfl
      have h0 : alpha_beta S (d + 1) p ⊥ ⊤ true = (⊥, none) := by
        simp only [alpha_beta]
        rw [if_pos hmvE]
        rfl
      rw [h0] at hbest
      exact absurd hbest (lt_irrefl _)
    · have hmvE : ¬ (S.legalMoves p).isEmpty = true := by
        simp [hmv]
      have hunf : alpha_beta S (d + 1) p ⊥ ⊤ true =
          abmMaxL (fun mv a' => (alpha_beta S d (S.child p mv) a' ⊤ false).1) ⊤
            (S.legalMoves p) ⊥ none ⊥ := by
        simp only [alpha_beta]
        rw [if_neg hmvE]
        rfl
      have hf : ∀ (mv : Move) (a' : Score), a' < ⊤ →
          ((alpha_beta S d (S.child p mv) a' ⊤ false).1 ≤ a' →
            fw (specOfMoveSpec S) d (S.child p mv) false ≤
              (alpha_beta S d (S.child p mv) a' ⊤ false).1) ∧
          (a' < (alpha_beta S d (S.child p mv) a' ⊤ false).1 →
            (alpha_beta S d (S.child p mv) a' ⊤ false).1 =
              fw (specOfMoveSpec S) d (S.child p mv) false) := by
        intro mv a' ha'
        rw [alpha_beta_fst]
        obtain ⟨k1, k2, k3⟩ := ab_KM (specOfMoveSpec S) d (S.child p mv) a' ⊤ false ha'
        refine ⟨k1, ?_⟩
        intro hgt
        rcases lt_or_eq_of_le (le_top :
            ab (specOfMoveSpec S) d (S.child p mv) a' ⊤ false ≤ ⊤) with h2 | h2
        · exact k3 hgt h2
        · exact le_antisymm (k2 h2.ge) (le_of_le_of_eq le_top h2.symm)
      obtain ⟨c1, c2, c3⟩ := abmMaxL_first
        (fun mv a' => (alpha_beta S d (S.child p mv) a' ⊤ false).1)
        (fun mv => fw (specOfMoveSpec S) d (S.child p mv) false)
        hf (S.legalMoves p) [] ⊥ none Score.bot_lt_top rfl
        (fun h => absurd h (lt_irrefl _)) (fun _ => rfl)
      rw [hunf] at hbest ⊢
      have hc := c2 hbest
      rw [List.nil_append] at hc
      exact hc

/-- Witness for C5: part 1 at `gameB` (depth 3, submission-order schedule,
maximum reported score 0 attained first by move 10), part 2 at the
one-ply `demoMS` (children scoring 3 and 5, best score 5 attained by the
second move). -/
theorem tie_break_keeps_first_best_witness :
    get_best_move gameB 0 3 [0, 1] [] = firstBest (reportedPairs gameB 0 3 [0, 1] []) ∧
    (alpha_beta demoMS 1 0 ⊥ ⊤ true).2 =
      (demoMS.legalMoves 0).find? fun mv =>
        fw (specOfMoveSpec demoMS) 0 (demoMS.child 0 mv) false =
          (alpha_beta demoMS 1 0 ⊥ ⊤ true).1 :=
  ⟨tie_break_keeps_first_best.1 ℕ ℕ ℕ gameB 0 3 [0, 1] [] (by decide) (by decide),
   tie_break_keeps_first_best.2 ℕ ℕ demoMS 0 0 (by decide)⟩

/-- C5 (counterexample): when every root move reports `-inf` — here the
single legal move runs into a checkmate scored `-inf` by the evaluator —
`get_best_move` returns `None` even though an earliest `-inf`-scoring move
exists, so the returned move is not the earliest best-scoring move. -/
theorem all_losing_root_returns_none :
    get_best_move gameLoss 0 1 [0] [] = none ∧
    firstBest (reportedPairs gameLoss 0 1 [0] []) = some 10 ∧
    get_best_move gameLoss 0 1 [0] [] ≠ firstBest (reportedPairs gameLoss 0 1 [0] []) := by
  refine ⟨by decide, by decide, by decide⟩

/-- C8 (code bug): thread scheduling changes the returned move, because
`get_best_move` submits `minimax` on the one shared board object and pops
it right after the submit, so a worker searches whatever position the
shared board holds when it actually runs.  On `gameShared` at depth 2
with an empty initial cache, the execution in which each task runs to
completion inside its push/pop bracket searches the two children (scores
0 and 105) and returns move 11, while the equally realizable execution —
e.g. with one worker thread that starts only after the submission loop —
in which both tasks run on the popped-back root (both futures score 0)
returns move 10. -/
theorem shared_board_schedule_changes_move :
    get_best_move_sched gameShared 0 2 [(0, true), (1, true)] [] = some 11 ∧
    get_best_move_sched gameShared 0 2 [(0, false), (1, false)] [] = some 10 ∧
    get_best_move_sched gameShared 0 2 [(0, true), (1, true)] [] ≠
      get_best_move_sched gameShared 0 2 [(0, false), (1, false)] [] := by
  refine ⟨by decide, by decide, by decide⟩

/-- If every recursive call returns the board it was given, the maximizing
loop returns the board it was given: each push is undone by the pop that
follows the recursive call, on the cutoff exit as well. -/
theorem msMaxL_preserves (R : MRules Pos Move K)
    (f : Pos → Score → Table K → Score × Pos × Table K)
    (hf : ∀ q a' t', (f q a' t').2.1 = q)
    (hinv : ∀ q mv, R.pop (R.push q mv) = q) (beta : Score) :
    ∀ (mvs : List Move) (m a : Score) (p : Pos) (t : Table K),
      (msMaxL R f beta mvs m a p t).2.1 = p := by
  intro mvs
  induction mvs with
  | nil => intro m a p t; rfl
  | cons mv mvs ih =>
    intro m a p t
    rcases heq : f (R.push p mv) a t with ⟨r, p2, t'⟩
    have hp2 : p2 = R.push p mv := by
      have := hf (R.push p mv) a t
      rw [heq] at this
      exact this
    simp only [msMaxL, heq]
    rw [hp2, hinv p mv]
    by_cases hba : beta ≤ max a r
    · rw [if_pos hba]
    · rw [if_neg hba]
      exact ih (max m r) (max a r) p t'

/-- The minimizing loop returns the board it was given, dually. -/
theorem msMinL_preserves (R : MRules Pos Move K)
    (f : Pos → Score → Table K → Score × Pos × Table K)
    (hf : ∀ q b' t', (f q b' t').2.1 = q)
    (hinv : ∀ q mv, R.pop (R.push q mv) = q) (alpha : Score) :
    ∀ (mvs : List Move) (m b : Score) (p : Pos) (t : Table K),
      (msMinL R f alpha mvs m b p t).2.1 = p := by
  intro mvs
  induction mvs with
  | nil => intro m b p t; rfl
  | cons mv mvs ih =>
    intro m b p t
    rcases heq : f (R.push p mv) b t with ⟨r, p2, t'⟩
    have hp2 : p2 = R.push p mv := by
      have := hf (R.push p mv) b t
      rw [heq] at this
      exact this
    simp only [msMinL, heq]
    rw [hp2, hinv p mv]
    by_cases hba : min b r ≤ alpha
    · rw [if_pos hba]
    · rw [if_neg hba]
      exact ih (min m r) (min b r) p t'

/-- C9: the search leaves the position unchanged: provided the rules
engine's pop exactly undoes its push (the §6 make/unmake contract, which
`ChessEngine`'s own `make_move`/`undo_move` satisfy per the inverse
theorem), `minimax` returns the board in exactly the state it received it,
for every depth, window, node role, and cache — the cutoff exit pops
before breaking like the normal exit. -/
theorem minimaxSt_preserves_board [DecidableEq K] (R : MRules Pos Move K)
    (hinv : ∀ q mv, R.pop (R.push q mv) = q) :
    ∀ (d : ℕ) (p : Pos) (a b : Score) (maximizing : Bool) (t : Table K),
      (minimaxSt R d p a b maximizing t).2.1 = p := by
  intro d
  induction d with
  | zero =>
    intro p a b maximizing t
    cases hlk : lookupT t (R.fen p, 0) with
    | some v => simp [minimaxSt, hlk]
    | none => simp [minimaxSt, hlk]
  | succ d ih =>
    intro p a b maximizing t
    cases hlk : lookupT t (R.fen p, d + 1) with
    | some v => simp [minimaxSt, hlk]
    | none =>
      by_cases hgo : R.gameOver p
      · simp [minimaxSt, hlk, hgo]
      · cases maximizing with
        | true =>
          have hloop := msMaxL_preserves R
            (fun q a' t' => minimaxSt R d q a' b false t')
            (fun q a' t' => ih q a' b false t') hinv b
            (R.legalMoves p) ⊥ a p t
          simp only [minimaxSt, hlk, hgo]
          simp only [Bool.false_eq_true, if_false, if_true, ite_false, ite_true]
          rcases hms : msMaxL R (fun q a' t' => minimaxSt R d q a' b false t') b
            (R.legalMoves p) ⊥ a p t with ⟨m, p', t'⟩
          rw [hms] at hloop
          simpa using hloop
        | false =>
          have hloop := msMinL_preserves R
            (fun q b' t' => minimaxSt R d q a b' true t')
            (fun q b' t' => ih q a b' true t') hinv a
            (R.legalMoves p) ⊤ b p t
          simp only [minimaxSt, hlk, hgo]
          simp only [Bool.false_eq_true, if_false, if_true, ite_false, ite_true]
          rcases hms : msMinL R (fun q b' t' => minimaxSt R d q a b' true t') a
            (R.legalMoves p) ⊤ b p t with ⟨m, p', t'⟩
          rw [hms] at hloop
          simpa using hloop

/-- Witness for C9 at the concrete stack-discipline rules engine, where
push conses the move and pop removes it: a depth-2 search starting from
the empty stack returns the empty stack. -/
theorem minimaxSt_preserves_board_witness :
    (minimaxSt stackRules 2 [] ⊥ ⊤ true []).2.1 = [] :=
  minimaxSt_preserves_board stackRules (fun _ _ => rfl) 2 [] ⊥ ⊤ true []

/-- C2 (counterexample): on a checkmated position with Black to move,
`evaluate_board` returns `inf`, the win sentinel, not a value strictly
below every non-terminal evaluation: the claim fails for Black. -/
theorem checkmate_black_not_loss :
    mateBlack.isCheckmate = true ∧ mateBlack.turn = false ∧
    evaluate_board mateBlack = ⊤ ∧
    emptyBoard.isCheckmate = false ∧ emptyBoard.isStalemate = false ∧
    emptyBoard.isInsufficientMaterial = false ∧
    ¬ evaluate_board mateBlack < evaluate_board emptyBoard := by
  refine ⟨rfl, rfl, by decide, rfl, rfl, rfl, by decide⟩

/-- C2 (amended): the evaluator's checkmate sentinel is White-perspective,
not mover's-perspective: on a checkmate it returns `-inf` exactly when
White is to move and `inf` when Black is to move, so the returned value is
strictly below every non-terminal evaluation only in the White-to-move
case, and strictly above every non-terminal evaluation in the
Black-to-move case. -/
theorem evaluate_checkmate_sided (b b' : PyBoard)
    (h : b.isCheckmate = true)
    (h1 : b'.isCheckmate = false) (h2 : b'.isStalemate = false)
    (h3 : b'.isInsufficientMaterial = false) :
    evaluate_board b = (if b.turn then ⊥ else ⊤) ∧
    (b.turn = true → evaluate_board b < evaluate_board b') ∧
    (b.turn = false → evaluate_board b' < evaluate_board b) := by
  have hb : evaluate_board b = if b.turn then ⊥ else ⊤ := by
    simp [evaluate_board, h]
  have hb' : evaluate_board b' = .int (boardSum b') := by
    simp [evaluate_board, h1, h2, h3]
  refine ⟨hb, ?_, ?_⟩
  · intro ht
    rw [hb, hb', if_pos ht]
    exact Score.bot_lt_int _
  · intro ht
    rw [hb, hb', if_neg (by simp [ht])]
    exact Score.int_lt_top _

/-- Witness for C2's amended claim at the White-to-move mate against the
empty non-terminal board. -/
theorem evaluate_checkmate_sided_witness :
    evaluate_board mateWhite = (if mateWhite.turn then ⊥ else ⊤) ∧
    (mateWhite.turn = true → evaluate_board mateWhite < evaluate_board emptyBoard) ∧
    (mateWhite.turn = false → evaluate_board emptyBoard < evaluate_board mateWhite) :=
  evaluate_checkmate_sided mateWhite emptyBoard rfl rfl rfl rfl

/-- C4 (counterexample): `PIECE_SQUARE_TABLES` supplies no table for rook,
queen, or king, and the evaluator silently falls back to material-only
scoring for them: a lone white rook scores exactly 500 on square 0 and on
square 27 alike, its position contributing nothing. -/
theorem missing_rook_table :
    PIECE_SQUARE_TABLES PieceType.rook = none ∧
    PIECE_SQUARE_TABLES PieceType.queen = none ∧
    PIECE_SQUARE_TABLES PieceType.king = none ∧
    evaluate_board (rookBoard 0) = .int 500 ∧
    evaluate_board (rookBoard 27) = .int 500 := by
  refine ⟨rfl, rfl, rfl, by decide, by decide⟩

/-- C4 (amended): positional tables exist only for pawn, knight, and
bishop; rook, queen, and king fall back to the all-zero table, so for
every non-terminal position the evaluator returns the signed sum of
material plus positional bonus in which rook, queen, and king pieces
contribute material only. -/
theorem pst_fallback_material_only (b : PyBoard)
    (h1 : b.isCheckmate = false) (h2 : b.isStalemate = false)
    (h3 : b.isInsufficientMaterial = false) :
    evaluate_board b = .int (boardSum b) ∧
    (PIECE_SQUARE_TABLES PieceType.pawn).isSome ∧
    (PIECE_SQUARE_TABLES PieceType.knight).isSome ∧
    (PIECE_SQUARE_TABLES PieceType.bishop).isSome ∧
    (∀ sq : Fin 64, pstOf .rook sq = 0 ∧ pstOf .queen sq = 0 ∧ pstOf .king sq = 0) ∧
    (∀ (sq : Fin 64) (piece : Piece), b.pieceAt sq = some piece →
      piece.pieceType = .rook ∨ piece.pieceType = .queen ∨ piece.pieceType = .king →
      squareVal b sq = (if piece.color = b.turn then PIECE_VALUES piece.pieceType
        else -(PIECE_VALUES piece.pieceType))) := by
  refine ⟨by simp [evaluate_board, h1, h2, h3], rfl, rfl, rfl, by decide, ?_⟩
  intro sq piece hpa hty
  have hpst : pstOf piece.pieceType sq = 0 := by
    have hz : ∀ s : Fin 64, pstOf .rook s = 0 ∧ pstOf .queen s = 0 ∧ pstOf .king s = 0 := by
      decide
    rcases hty with h | h | h
    · rw [h]
      exact (hz sq).1
    · rw [h]
      exact (hz sq).2.1
    · rw [h]
      exact (hz sq).2.2
  simp [squareVal, hpa, hpst]

theorem pyIdx_lt {len : ℕ} {i : ℤ} {j : ℕ} (h : pyIdx len i = some j) :
    j < len := by
  unfold pyIdx at h
  split_ifs at h with h1 h2
  · injection h with h
    omega
  · injection h with h
    omega

theorem setSelf : ∀ (l : List α) (n : ℕ) (a : α), l[n]? = some a → l.set n a = l := by
  intro l
  induction l with
  | nil => intro n a h; simp at h
  | cons x xs ih =>
    intro n a h
    cases n with
    | zero =>
      simp at h
      simp [List.set, h]
    | succ n =>
      simp at h
      simp [List.set, ih n a h]

theorem getCell_mk {b : List (List Char)} {r c : ℤ} (j k : ℕ)
    (row : List Char) {y : Char}
    (hj : pyIdx b.length r = some j) (hrow : b[j]? = some row)
    (hk : pyIdx row.length c = some k) (hy : row[k]? = some y) :
    getCell b r c = some y := by
  simp [getCell, pyGet, hj, hrow, hk, hy]

theorem setCell_mk {b : List (List Char)} {r c : ℤ} (j k : ℕ)
    (row : List Char) (x : Char)
    (hj : pyIdx b.length r = some j) (hrow : b[j]? = some row)
    (hk : pyIdx row.length c = some k) :
    setCell b r c x = some (b.set j (row.set k x)) := by
  simp [setCell, pyGet, pySet, hj, hrow, hk]

theorem getCell_some {b : List (List Char)} {r c : ℤ} {y : Char}
    (h : getCell b r c = some y) :
    ∃ j row k, pyIdx b.length r = some j ∧ b[j]? = some row ∧
      pyIdx row.length c = some k ∧ row[k]? = some y := by
  unfold getCell pyGet at h
  rcases Option.bind_eq_some.mp h with ⟨row, hrow, hy⟩
  rcases Option.bind_eq_some.mp hrow with ⟨j, hj, hjrow⟩
  rcases Option.bind_eq_some.mp hy with ⟨k, hk, hky⟩
  exact ⟨j, row, k, hj, hjrow, hk, hky⟩

theorem setCell_some {b : List (List Char)} {r c : ℤ} {x : Char}
    {b' : List (List Char)} (h : setCell b r c x = some b') :
    ∃ j row k, pyIdx b.length r = some j ∧ b[j]? = some row ∧
      pyIdx row.length c = some k ∧ b' = b.set j (row.set k x) := by
  unfold setCell pyGet pySet at h
  rcases Option.bind_eq_some.mp h with ⟨row, hrow, hrest⟩
  rcases Option.bind_eq_some.mp hrow with ⟨j, hj, hjrow⟩
  rcases Option.bind_eq_some.mp hrest with ⟨row', hrow', hset⟩
  rcases Option.map_eq_some'.mp hrow' with ⟨k, hk, hkrow⟩
  rcases Option.map_eq_some'.mp hset with ⟨j2, hj2, hb'⟩
  have hjj : j2 = j := by
    have := hj.symm.trans hj2
    injection this with h
    exact h.symm
  exact ⟨j, row, k, hj, hjrow, hk, by rw [← hb', hjj, ← hkrow]⟩

theorem undo_chain {b2 : List (List Char)} {fr fc tr tc : ℤ} {cap piece2 : Char}
    {b3 b4 : List (List Char)} {w : Bool}
    (hg : getCell b2 tr tc = some piece2)
    (hs1 : setCell b2 fr fc piece2 = some b3)
    (hs2 : setCell b3 tr tc cap = some b4) :
    undo_move ⟨b2, w⟩ ((fr, fc), (tr, tc)) cap = some ⟨b4, !w⟩ := by
  simp [undo_move, hg, hs1, hs2]

/-- C7: `make_move` and `undo_move` are exact inverses: for every board,
every move (with Python-valid indices, the only ones that do not raise),
and the piece that stood on the destination, making the move and then
undoing it with that captured piece restores the board array and the
side-to-move flag exactly — including degenerate moves whose source and
destination normalize to the same cell or the same row. -/
theorem make_undo_inverse (B B' : CBoard) (mv : CMove) (cap : Char)
    (hcap : getCell B.board mv.2.1 mv.2.2 = some cap)
    (hmk : make_move B mv = some B') :
    undo_move B' mv cap = some B := by
  obtain ⟨⟨fr, fc⟩, tr, tc⟩ := mv
  unfold make_move at hmk
  rcases Option.bind_eq_some.mp hmk with ⟨piece, hpiece, hmk1⟩
  rcases Option.bind_eq_some.mp hmk1 with ⟨b1, hset1, hmk2⟩
  rcases Option.map_eq_some'.mp hmk2 with ⟨b2, hset2, hB'⟩
  obtain ⟨jf, rowf, kf, hjf, hrowf, hkf, hvf⟩ := getCell_some hpiece
  obtain ⟨jt, rowt, kt, hjt, hrowt, hkt, hvt⟩ := getCell_some hcap
  obtain ⟨jt1, rowt1, kt1, hjt1, hrowt1, hkt1, hb1⟩ := setCell_some hset1
  have e1 : jt = jt1 := Option.some.inj (hjt.symm.trans hjt1)
  subst e1
  have e2 : rowt = rowt1 := Option.some.inj (hrowt.symm.trans hrowt1)
  subst e2
  have e3 : kt = kt1 := Option.some.inj (hkt.symm.trans hkt1)
  subst e3
  have hjtlt : jt < B.board.length := pyIdx_lt hjt
  have hjflt : jf < B.board.length := pyIdx_lt hjf
  have hktlt : kt < rowt.length := pyIdx_lt hkt
  have hkflt : kf < rowf.length := pyIdx_lt hkf
  have hlen1 : b1.length = B.board.length := by rw [hb1]; simp
  obtain ⟨jf2, rowm, kf2, hjf2, hrowm, hkf2, hb2⟩ := setCell_some hset2
  rw [hlen1] at hjf2
  have e4 : jf = jf2 := Option.some.inj (hjf.symm.trans hjf2)
  subst e4
  rw [← hB']
  by_cases hjj : jf = jt
  · subst hjj
    have err : rowf = rowt := Option.some.inj (hrowf.symm.trans hrowt)
    subst err
    rw [hb1, List.getElem?_set_self hjtlt] at hrowm
    have hrowm' : rowf.set kt piece = rowm := Option.some.inj hrowm
    subst hrowm'
    rw [List.length_set] at hkf2
    have e5 : kf = kf2 := Option.some.inj (hkf.symm.trans hkf2)
    subst e5
    have hlen2 : b2.length = B.board.length := by rw [hb2, hb1]; simp
    have hrow2 : b2[jf]? = some ((rowf.set kt piece).set kf '.') := by
      rw [hb2]
      exact List.getElem?_set_self (hlen1 ▸ hjflt)
    by_cases hkk : kf = kt
    · subst hkk
      have hg : getCell b2 tr tc = some '.' := by
        refine getCell_mk jf kf _ (hlen2 ▸ hjt) hrow2 ?_ ?_
        · rw [List.length_set, List.length_set]
          exact hkt
        · exact List.getElem?_set_self (by simpa using hktlt)
      have hs1 : setCell b2 fr fc '.' =
          some (b2.set jf (((rowf.set kf piece).set kf '.').set kf '.')) := by
        refine setCell_mk jf kf _ '.' (hlen2 ▸ hjf) hrow2 ?_
        rw [List.length_set, List.length_set]
        exact hkf
      have hb3 : b2.set jf (((rowf.set kf piece).set kf '.').set kf '.') =
          B.board.set jf (rowf.set kf '.') := by
        rw [List.set_set, List.set_set, hb2, hb1, List.set_set, List.set_set]
      rw [hb3] at hs1
      have hrow3 : (B.board.set jf (rowf.set kf '.'))[jf]? =
          some (rowf.set kf '.') := List.getElem?_set_self hjflt
      have hs2 : setCell (B.board.set jf (rowf.set kf '.')) tr tc cap =
          some ((B.board.set jf (rowf.set kf '.')).set jf
            ((rowf.set kf '.').set kf cap)) := by
        refine setCell_mk jf kf _ cap ?_ hrow3 ?_
        · rw [List.length_set]
          exact hjt
        · rw [List.length_set]
          exact hkt
      have hb4 : (B.board.set jf (rowf.set kf '.')).set jf
          ((rowf.set kf '.').set kf cap) = B.board := by
        rw [List.set_set, List.set_set, setSelf rowf kf cap hvt,
          setSelf _ jf rowf hrowf]
      rw [hb4] at hs2
      rw [undo_chain hg hs1 hs2]
      rw [Bool.not_not]
    · have hg : getCell b2 tr tc = some piece := by
        refine getCell_mk jf kt _ (hlen2 ▸ hjt) hrow2 ?_ ?_
        · rw [List.length_set, List.length_set]
          exact hkt
        · rw [List.getElem?_set_ne hkk]
          exact List.getElem?_set_self hktlt
      have hs1 : setCell b2 fr fc piece =
          some (b2.set jf (((rowf.set kt piece).set kf '.').set kf piece)) := by
        refine setCell_mk jf kf _ piece (hlen2 ▸ hjf) hrow2 ?_
        rw [List.length_set, List.length_set]
        exact hkf
      have hvf' : (rowf.set kt piece)[kf]? = some piece := by
        rw [List.getElem?_set_ne (fun hc => hkk hc.symm)]
        exact hvf
      have hb3 : b2.set jf (((rowf.set kt piece).set kf '.').set kf piece) =
          B.board.set jf (rowf.set kt piece) := by
        rw [List.set_set, setSelf _ kf piece hvf', hb2, hb1, List.set_set,
          List.set_set]
      rw [hb3] at hs1
      have hrow3 : (B.board.set jf (rowf.set kt piece))[jf]? =
          some (rowf.set kt piece) := List.getElem?_set_self hjflt
      have hs2 : setCell (B.board.set jf (rowf.set kt piece)) tr tc cap =
          some ((B.board.set jf (rowf.set kt piece)).set jf
            ((rowf.set kt piece).set kt cap)) := by
        refine setCell_mk jf kt _ cap ?_ hrow3 ?_
        · rw [List.length_set]
          exact hjt
        · rw [List.length_set]
          exact hkt
      have hb4 : (B.board.set jf (rowf.set kt piece)).set jf
          ((rowf.set kt piece).set kt cap) = B.board := by
        rw [List.set_set, List.set_set, setSelf rowf kt cap hvt,
          setSelf _ jf rowf hrowf]
      rw [hb4] at hs2
      rw [undo_chain hg hs1 hs2]
      rw [Bool.not_not]
  · rw [hb1, List.getElem?_set_ne (fun hc => hjj hc.symm)] at hrowm
    have hrowm' : rowf = rowm := Option.some.inj (hrowf.symm.trans hrowm)
    subst hrowm'
    have e5 : kf = kf2 := Option.some.inj (hkf.symm.trans hkf2)
    subst e5
    have hlen2 : b2.length = B.board.length := by rw [hb2, hb1]; simp
    have hrow2f : b2[jf]? = some (rowf.set kf '.') := by
      rw [hb2]
      exact List.getElem?_set_self (hlen1 ▸ hjflt)
    have hrow2t : b2[jt]? = some (rowt.set kt piece) := by
      rw [hb2, List.getElem?_set_ne hjj, hb1]
      exact List.getElem?_set_self hjtlt
    have hg : getCell b2 tr tc = some piece := by
      refine getCell_mk jt kt _ (hlen2 ▸ hjt) hrow2t ?_ ?_
      · rw [List.length_set]
        exact hkt
      · exact List.getElem?_set_self hktlt
    have hs1 : setCell b2 fr fc piece =
        some (b2.set jf ((rowf.set kf '.').set kf piece)) := by
      refine setCell_mk jf kf _ piece (hlen2 ▸ hjf) hrow2f ?_
      rw [List.length_set]
      exact hkf
    have hb3 : b2.set jf ((rowf.set kf '.').set kf piece) = b1 := by
      rw [List.set_set, setSelf rowf kf piece hvf, hb2, List.set_set]
      have hb1f : b1[jf]? = some rowf := by
        rw [hb1, List.getElem?_set_ne (fun hc => hjj hc.symm)]
        exact hrowf
      exact setSelf b1 jf rowf hb1f
    rw [hb3] at hs1
    have hs2 : setCell b1 tr tc cap =
        some (b1.set jt ((rowt.set kt piece).set kt cap)) := by
      refine setCell_mk jt kt _ cap (hlen1 ▸ hjt) ?_ ?_
      · rw [hb1]
        exact List.getElem?_set_self hjtlt
      · rw [List.length_set]
        exact hkt
    have hb4 : b1.set jt ((rowt.set kt piece).set kt cap) = B.board := by
      rw [List.set_set, setSelf rowt kt cap hvt, hb1, List.set_set,
        setSelf _ jt rowt hrowt]
    rw [hb4] at hs2
    rw [undo_chain hg hs1 hs2]
    rw [Bool.not_not]

/-- Witness for C7: the double pawn push e2e4 from the start position is
made and then undone, restoring the initial board. -/
theorem make_undo_inverse_witness :
    undo_move afterE4 ((6, 4), (4, 4)) '.' = some startBoard :=
  make_undo_inverse startBoard afterE4 ((6, 4), (4, 4)) '.' (by decide) (by decide)

/-- Witness for C4's amended claim at the lone-rook board, whose single
piece is one of the table-less types. -/
theorem pst_fallback_material_only_witness :
    evaluate_board (rookBoard 0) = .int (boardSum (rookBoard 0)) ∧
    (PIECE_SQUARE_TABLES PieceType.pawn).isSome ∧
    (PIECE_SQUARE_TABLES PieceType.knight).isSome ∧
    (PIECE_SQUARE_TABLES PieceType.bishop).isSome ∧
    (∀ sq : Fin 64, pstOf .rook sq = 0 ∧ pstOf .queen sq = 0 ∧ pstOf .king sq = 0) ∧
    (∀ (sq : Fin 64) (piece : Piece), (rookBoard 0).pieceAt sq = some piece →
      piece.pieceType = .rook ∨ piece.pieceType = .queen ∨ piece.pieceType = .king →
      squareVal (rookBoard 0) sq =
        (if piece.color = (rookBoard 0).turn then PIECE_VALUES piece.pieceType
          else -(PIECE_VALUES piece.pieceType))) :=
  pst_fallback_material_only (rookBoard 0) rfl rfl rfl

theorem count_set_balance {α : Type} [DecidableEq α] :
    ∀ (l : List α) (k : ℕ) (y x a : α), l[k]? = some a →
      (l.set k y).count x + (if a = x then 1 else 0) =
        l.count x + (if y = x then 1 else 0) := by
  intro l
  induction l with
  | nil => intro k y x a h; simp at h
  | cons z zs ih =>
    intro k y x a h
    cases k with
    | zero =>
      simp at h
      subst h
      simp only [List.set, List.count_cons]
      by_cases h1 : z = x <;> by_cases h2 : y = x <;> simp [h1, h2]
    | succ k =>
      simp at h
      have hih := ih k y x a h
      simp only [List.set, List.count_cons]
      by_cases h1 : a = x <;> by_cases h2 : y = x <;> by_cases h3 : z = x <;>
        simp [h1, h2, h3] at hih ⊢ <;> omega

theorem sum_map_set (f : List Char → ℕ) :
    ∀ (b : List (List Char)) (j : ℕ) (row row' : List Char), b[j]? = some row →
      ((b.set j row').map f).sum + f row = (b.map f).sum + f row' := by
  intro b
  induction b with
  | nil => intro j row row' h; simp at h
  | cons r0 rs ih =>
    intro j row row' h
    cases j with
    | zero =>
      simp at h
      subst h
      simp only [List.set, List.map_cons, List.sum_cons]
      omega
    | succ j =>
      simp at h
      have hih := ih j row row' h
      simp only [List.set, List.map_cons, List.sum_cons]
      omega

/-- Moving a piece onto an empty destination in the same column preserves
every cell count: the multiset of board characters is invariant. -/
theorem make_move_count (B B' : CBoard) (fr fc tr : ℤ) (piece : Char)
    (hfrom : getCell B.board fr fc = some piece) (hne : piece ≠ '.')
    (hto : getCell B.board tr fc = some '.')
    (hmk : make_move B ((fr, fc), (tr, fc)) = some B') :
    ∀ x : Char, countCells B'.board x = countCells B.board x := by
  intro x
  unfold make_move at hmk
  rcases Option.bind_eq_some.mp hmk with ⟨piece0, hpiece0, hmk1⟩
  have hp0 : piece = piece0 := Option.some.inj (hfrom.symm.trans hpiece0)
  subst hp0
  rcases Option.bind_eq_some.mp hmk1 with ⟨b1, hset1, hmk2⟩
  rcases Option.map_eq_some'.mp hmk2 with ⟨b2, hset2, hB'⟩
  obtain ⟨jf, rowf, kf, hjf, hrowf, hkf, hvf⟩ := getCell_some hfrom
  obtain ⟨jt, rowt, kt, hjt, hrowt, hkt, hvt⟩ := getCell_some hto
  obtain ⟨jt1, rowt1, kt1, hjt1, hrowt1, hkt1, hb1⟩ := setCell_some hset1
  have e1 : jt = jt1 := Option.some.inj (hjt.symm.trans hjt1)
  subst e1
  have e2 : rowt = rowt1 := Option.some.inj (hrowt.symm.trans hrowt1)
  subst e2
  have e3 : kt = kt1 := Option.some.inj (hkt.symm.trans hkt1)
  subst e3
  have hlen1 : b1.length = B.board.length := by rw [hb1]; simp
  obtain ⟨jf2, rowm, kf2, hjf2, hrowm, hkf2, hb2⟩ := setCell_some hset2
  rw [hlen1] at hjf2
  have e4 : jf = jf2 := Option.some.inj (hjf.symm.trans hjf2)
  subst e4
  have hjj : jf ≠ jt := by
    intro hc
    subst hc
    have er : rowf = rowt := Option.some.inj (hrowf.symm.trans hrowt)
    subst er
    have ek : kf = kt := Option.some.inj (hkf.symm.trans hkt)
    subst ek
    exact hne (Option.some.inj (hvf.symm.trans hvt))
  rw [hb1, List.getElem?_set_ne (fun hc => hjj hc.symm)] at hrowm
  have e5 : rowf = rowm := Option.some.inj (hrowf.symm.trans hrowm)
  subst e5
  have e6 : kf = kf2 := Option.some.inj (hkf.symm.trans hkf2)
  subst e6
  have hbb' : B'.board = b2 := by rw [← hB']
  have hb1f : b1[jf]? = some rowf := by
    rw [hb1, List.getElem?_set_ne (fun hc => hjj hc.symm)]
    exact hrowf
  have h1 := sum_map_set (fun row => row.count x) B.board jt rowt
    (rowt.set kt piece) hrowt
  have h2 := sum_map_set (fun row => row.count x) b1 jf rowf
    (rowf.set kf '.') hb1f
  rw [← hb1] at h1
  rw [← hb2] at h2
  have h3 := count_set_balance rowf kf '.' x piece hvf
  have h4 := count_set_balance rowt kt piece x '.' hvt
  rw [hbb']
  show countCells b2 x = countCells B.board x
  unfold countCells
  simp only at h1 h2
  obtain ⟨i1, hi1⟩ : ∃ i1, (if piece = x then (1 : ℕ) else 0) = i1 := ⟨_, rfl⟩
  obtain ⟨i2, hi2⟩ : ∃ i2, (if ('.' : Char) = x then (1 : ℕ) else 0) = i2 := ⟨_, rfl⟩
  rw [hi1, hi2] at h3 h4
  omega

/-- Classification of the single-piece move generator: every generated
move starts at the scanned square, targets the same column one or two
steps forward (two only from the start row), and its destination square is
empty on the board. -/
theorem generate_piece_moves_spec (B : CBoard) (r c : ℤ) (piece : Char)
    (ms : List CMove) (h : generate_piece_moves B r c piece = some ms) :
    ∀ mv ∈ ms, mv.1 = (r, c) ∧ piece.toUpper = 'P' ∧ mv.2.2 = c ∧
      getCell B.board mv.2.1 c = some '.' ∧
      (mv.2.1 = r + (if piece.isUpper then (-1 : ℤ) else 1) ∨
        (mv.2.1 = r + 2 * (if piece.isUpper then (-1 : ℤ) else 1) ∧
          r = (if piece.isUpper then (6 : ℤ) else 1))) := by
  by_cases hp : piece.toUpper = 'P'
  · simp only [generate_piece_moves, hp, if_true] at h
    rcases Option.bind_eq_some.mp h with ⟨tgt, htgt, h2⟩
    by_cases ht : tgt = '.'
    · rw [if_pos ht] at h2
      subst ht
      by_cases hr : r = (if piece.isUpper then (6 : ℤ) else 1)
      · rw [if_pos hr] at h2
        rcases Option.map_eq_some'.mp h2 with ⟨tgt2, htgt2, hms⟩
        by_cases h2t : tgt2 = '.'
        · rw [if_pos h2t] at hms
          subst h2t
          subst hms
          intro mv hmv
          rcases List.mem_cons.mp hmv with hh | hh
          · subst hh
            exact ⟨rfl, hp, rfl, htgt, Or.inl rfl⟩
          · rcases List.mem_singleton.mp hh with hh2
            subst hh2
            exact ⟨rfl, hp, rfl, htgt2, Or.inr ⟨rfl, hr⟩⟩
        · rw [if_neg h2t] at hms
          subst hms
          intro mv hmv
          rcases List.mem_singleton.mp hmv with hh
          subst hh
          exact ⟨rfl, hp, rfl, htgt, Or.inl rfl⟩
      · rw [if_neg hr] at h2
        have hms : [((r, c), (r + (if piece.isUpper then (-1 : ℤ) else 1), c))] = ms :=
          Option.some.inj h2
        subst hms
        intro mv hmv
        rcases List.mem_singleton.mp hmv with hh
        subst hh
        exact ⟨rfl, hp, rfl, htgt, Or.inl rfl⟩
    · rw [if_neg ht] at h2
      have hms : ([] : List CMove) = ms := Option.some.inj h2
      subst hms
      intro mv hmv
      simp at hmv
  · simp only [generate_piece_moves, hp, if_false] at h
    have hms : ([] : List CMove) = ms := Option.some.inj h
    subst hms
    intro mv hmv
    simp at hmv

/-- Scanning one row: every move generated while walking `row`, the tail of
the board row `fullrow` starting at column `pre.length`, satisfies the
pawn-push classification. -/
theorem genRow_spec (B : CBoard) (r : ℤ) (j : ℕ)
    (hj : pyIdx B.board.length r = some j) (fullrow : List Char)
    (hfull : B.board[j]? = some fullrow) :
    ∀ (row pre : List Char), fullrow = pre ++ row →
      ∀ ms : List CMove, genRow B r row (pre.length : ℤ) = some ms →
      ∀ mv ∈ ms, pawnPushSpec B mv := by
  intro row
  induction row with
  | nil =>
    intro pre _ ms h mv hmv
    have hms : ([] : List CMove) = ms := Option.some.inj h
    subst hms
    simp at hmv
  | cons piece rest ih =>
    intro pre hsplit ms h mv hmv
    simp only [genRow] at h
    by_cases hcond : (piece.isUpper = B.white_to_move ∧ piece ≠ '.')
    · rw [if_pos hcond] at h
      rcases Option.bind_eq_some.mp h with ⟨ms1, hms1, h2⟩
      rcases Option.map_eq_some'.mp h2 with ⟨ms2, hms2, hms⟩
      subst hms
      rcases List.mem_append.mp hmv with hmem | hmem
      · obtain ⟨hmv1, hpp, hcol, hdot, hor⟩ :=
          generate_piece_moves_spec B r _ piece ms1 hms1 mv hmem
        have hfromcell : getCell B.board r (pre.length : ℤ) = some piece := by
          refine getCell_mk j pre.length fullrow hj hfull ?_ ?_
          · have hlt : pre.length < fullrow.length := by
              rw [hsplit, List.length_append]
              simp
            unfold pyIdx
            rw [if_pos ⟨Int.natCast_nonneg _, by exact_mod_cast hlt⟩]
            simp
          · rw [hsplit, List.getElem?_append_right (le_refl _)]
            simp
        refine ⟨piece, ?_, hcond.1, hcond.2, hpp, ?_, ?_, ?_⟩
        · rw [hmv1]
          exact hfromcell
        · rw [hmv1]
          exact hcol
        · rw [hcol]
          exact hdot
        · rw [hmv1]
          exact hor
      · refine ih (pre ++ [piece]) (by rw [hsplit]; simp) ms2 ?_ mv hmem
        rw [show (((pre ++ [piece]).length : ℕ) : ℤ) = (pre.length : ℤ) + 1 by simp]
        exact hms2
    · rw [if_neg hcond] at h
      refine ih (pre ++ [piece]) (by rw [hsplit]; simp) ms ?_ mv hmv
      rw [show (((pre ++ [piece]).length : ℕ) : ℤ) = (pre.length : ℤ) + 1 by simp]
      exact h

/-- Scanning the rows: every move generated while walking `rows`, the tail
of the board starting at row `preRows.length`, satisfies the pawn-push
classification. -/
theorem genRows_spec (B : CBoard) :
    ∀ (rows preRows : List (List Char)), B.board = preRows ++ rows →
      ∀ ms : List CMove, genRows B rows (preRows.length : ℤ) = some ms →
      ∀ mv ∈ ms, pawnPushSpec B mv := by
  intro rows
  induction rows with
  | nil =>
    intro preRows _ ms h mv hmv
    have hms : ([] : List CMove) = ms := Option.some.inj h
    subst hms
    simp at hmv
  | cons row rest ih =>
    intro preRows hsplit ms h mv hmv
    simp only [genRows] at h
    rcases Option.bind_eq_some.mp h with ⟨ms1, hms1, h2⟩
    rcases Option.map_eq_some'.mp h2 with ⟨ms2, hms2, hms⟩
    subst hms
    rcases List.mem_append.mp hmv with hmem | hmem
    · have hlt : preRows.length < B.board.length := by
        rw [hsplit, List.length_append]
        simp
      have hj : pyIdx B.board.length (preRows.length : ℤ) = some preRows.length := by
        unfold pyIdx
        rw [if_pos ⟨Int.natCast_nonneg _, by exact_mod_cast hlt⟩]
        simp
      have hfull : B.board[preRows.length]? = some row := by
        rw [hsplit, List.getElem?_append_right (le_refl _)]
        simp
      refine genRow_spec B _ _ hj row hfull row [] rfl ms1 ?_ mv hmem
      simpa using hms1
    · refine ih (preRows ++ [row]) (by rw [hsplit]; simp) ms2 ?_ mv hmem
      rw [show (((preRows ++ [row]).length : ℕ) : ℤ) = (preRows.length : ℤ) + 1 by simp]
      exact hms2

/-- C10: every move produced by `ChessEngine.generate_legal_moves` moves a
pawn of the side to move straight forward onto an empty square — one step,
or two from the start row — and never captures; consequently making any
generated move preserves the multiset of characters on the board, so the
piece multiset is invariant along any search path. -/
theorem legal_moves_are_pawn_pushes (B : CBoard) (ms : List CMove)
    (h : generate_legal_moves B = some ms) :
    ∀ mv ∈ ms, pawnPushSpec B mv ∧
      ∀ B', make_move B mv = some B' →
        ∀ x : Char, countCells B'.board x = countCells B.board x := by
  intro mv hmv
  have hspec : pawnPushSpec B mv :=
    genRows_spec B B.board [] rfl ms h mv hmv
  refine ⟨hspec, ?_⟩
  intro B' hmk x
  obtain ⟨piece, hfrom, _, hne, _, hcol, hdot, _⟩ := hspec
  obtain ⟨⟨fr, fc⟩, tr, tc⟩ := mv
  simp only at hcol hfrom hdot hmk
  subst hcol
  exact make_move_count B B' fr tc tr piece hfrom hne hdot hmk x

/-- Witness for C10: the start position's generated move list contains the
single pawn push a2a3, which satisfies the classification and preserves
the cell counts. -/
theorem legal_moves_are_pawn_pushes_witness :
    pawnPushSpec startBoard ((6, 0), (5, 0)) ∧
      ∀ B', make_move startBoard ((6, 0), (5, 0)) = some B' →
        ∀ x : Char, countCells B'.board x = countCells startBoard.board x :=
  legal_moves_are_pawn_pushes startBoard
    ((generate_legal_moves startBoard).getD []) (by decide)
    ((6, 0), (5, 0)) (by decide)
